import Mathlib

/-!
# Verification of the lcls-catalog snapshot/delta engine

A shallow embedding of the Parquet-based filesystem metadata catalog
(`lcls_catalog`): the state reconstructor, the delta computer, the
consolidator, the selective-dedup query layer, the file scanner, and the
CLI size parser.  Python dictionaries keyed by path are modelled as
association lists with Python's insert-or-overwrite semantics, directories
as lists of `(filename, rows)` pairs, and machine reals (Python floats)
as exact rationals.  Fallible operations return `Option` or `Except`.
-/

/-! ## Python primitives -/

/-- Python truthiness of an optional bool (`None` and `False` are falsy). -/
def pyTruthy : Option Bool → Bool
  | some b => b
  | none => false

/-- `str.startswith(pre)`, computed on the character lists. -/
def pyStartsWith (s pre : String) : Bool :=
  pre.data.isPrefixOf s.data

/-- `str.endswith(suf)`, computed on the character lists. -/
def pyEndsWith (s suf : String) : Bool :=
  suf.data.isSuffixOf s.data

/-- `s[:-n]` on a non-empty count: drop the last `n` characters. -/
def strDropRight (s : String) (n : ℕ) : String :=
  String.mk (s.data.take (s.data.length - n))

/-- `str.strip()`: remove leading and trailing whitespace. -/
def pyStrip (s : String) : String :=
  String.mk (((s.data.dropWhile Char.isWhitespace).reverse.dropWhile Char.isWhitespace).reverse)

/-- `str.upper()` (ASCII fragment, which is all the CLI uses). -/
def pyUpper (s : String) : String :=
  String.mk (s.data.map Char.toUpper)

/-- Numeric value of a decimal digit character. -/
def digVal (c : Char) : ℕ := c.toNat - 48

/-- Value of a big-endian list of decimal digit characters. -/
def natOfDigits (l : List Char) : ℕ :=
  l.foldl (fun acc c => 10 * acc + digVal c) 0

/-- Truncation toward zero, Python's `int()` applied to a float value. -/
def pyTrunc (q : ℚ) : ℤ :=
  if 0 ≤ q then ⌊q⌋ else ⌈q⌉

/-- Python `float(s)`: parser for the fragment
`[ws] [sign] (digits [. digits] | . digits) [ws]` (exponent forms,
`inf`/`nan` and underscore separators are outside the modelled fragment).
Returns `none` where Python raises `ValueError`. -/
def pyFloat? (s : String) : Option ℚ :=
  let cs := (pyStrip s).data
  let core : List Char → Option ℚ := fun l =>
    let intPart := l.takeWhile Char.isDigit
    let rest := l.dropWhile Char.isDigit
    match rest with
    | [] => if intPart = [] then none else some ((natOfDigits intPart : ℤ) : ℚ)
    | '.' :: frac =>
        if frac.all Char.isDigit ∧ (intPart ≠ [] ∨ frac ≠ []) then
          some (((natOfDigits intPart : ℤ) : ℚ) +
            ((natOfDigits frac : ℤ) : ℚ) / ((10 : ℚ) ^ frac.length))
        else none
    | _ => none
  match cs with
  | '+' :: rest => core rest
  | '-' :: rest => (core rest).map Neg.neg
  | l => core l

/-- Python `int(s)` on a string: `[ws] [sign] digits [ws]`; no decimal point
is accepted.  Returns `none` where Python raises `ValueError`. -/
def pyIntOfString? (s : String) : Option ℤ :=
  let cs := (pyStrip s).data
  let core : List Char → Option ℤ := fun l =>
    if l ≠ [] ∧ l.all Char.isDigit then some ((natOfDigits l : ℤ)) else none
  match cs with
  | '+' :: rest => core rest
  | '-' :: rest => (core rest).map Neg.neg
  | l => core l

/-! ## `cli.parse_size`

Embeds `lcls_catalog.cli.parse_size`.  The Python function iterates the
dict `{"B": 1, "KB": 1024, "MB": 1024**2, "GB": 1024**3, "TB": 1024**4}`
in insertion order and takes the first unit for which
`size_str.endswith(unit)` holds; `none` models a raised `ValueError`. -/

/-- The `units` dict of `parse_size`, in Python insertion order. -/
def parseSizeUnits : List (String × ℤ) :=
  [("B", 1), ("KB", 1024), ("MB", 1024 ^ 2), ("GB", 1024 ^ 3), ("TB", 1024 ^ 4)]

/-- The `for unit, multiplier in units.items()` loop of `parse_size`. -/
def parse_size_loop : List (String × ℤ) → String → Option ℤ
  | [], t => pyIntOfString? t
  | (u, m) :: rest, t =>
      if pyEndsWith t u then
        (pyFloat? (strDropRight t u.data.length)).map (fun n => pyTrunc (n * (m : ℚ)))
      else
        parse_size_loop rest t

/-- `cli.parse_size`: strip and uppercase, then try each unit in dict order. -/
def parse_size (s : String) : Option ℤ :=
  parse_size_loop parseSizeUnits (pyUpper (pyStrip s))

/-- C7: the claim states `parse_size "1KB" = 1024` and `parse_size "500MB"
= 500 * 2^20`.  In the code the unit `"B"` is tested first and `"1KB"`,
`"500MB"`, … all end with `"B"`, so the loop tries `float("1K")` /
`float("500M")`, which raises `ValueError`.  Only the plain-`B` unit and
raw integers work; this contradicts the function's own docstring
(`e.g., '1GB', '500MB'`). -/
theorem parse_size_unit_strings_raise :
    parse_size "1KB" = none ∧
    parse_size "500MB" = none ∧
    parse_size "2GB" = none ∧
    parse_size "3TB" = none ∧
    parse_size "1B" = some 1 ∧
    parse_size "123" = some 123 := by
  refine ⟨by decide, by decide, by decide, by decide, ?_, by decide⟩
  have h1 : parse_size "1B" =
      (pyFloat? "1").map (fun n => pyTrunc (n * ((1 : ℤ) : ℚ))) := rfl
  have h2 : pyFloat? "1" = some 1 := by decide
  rw [h1, h2, Option.map_some']
  have h3 : pyTrunc ((1 : ℚ) * ((1 : ℤ) : ℚ)) = 1 := by
    norm_num [pyTrunc]
  rw [h3]

/-! ## Data model

One row of the unified base/delta Parquet schema
(`ParquetCatalog.SCHEMA`).  A Python row dict always carries every
column; a popped `status` key and a `None` value both map to `none`.
Nullable numeric and string columns are `Option`s; `path`, `parent_path`,
`filename` and `indexed_at` are always written non-null by the code and
are modelled as plain strings. -/
structure Record where
  path : String
  parent_path : String
  filename : String
  size : Option ℤ
  mtime : Option ℤ
  owner : Option String
  group_name : Option String
  permissions : Option ℤ
  checksum : Option String
  experiment : Option String
  run : Option ℤ
  indexed_at : String
  on_disk : Option Bool
  status : Option String
deriving DecidableEq

/-- An experiment directory: a list of `(filename, rows)` pairs. -/
abbrev Dir : Type := List (String × List Record)

/-- The reconstructed state: a Python dict `path → record` modelled as an
association list in insertion order. -/
abbrev StateMap : Type := List (String × Record)

/-- Python dict assignment `d[k] = v`: overwrite in place if the key is
present, else append at the end. -/
def dictSet {α : Type} : List (String × α) → String → α → List (String × α)
  | [], k, v => [(k, v)]
  | (k', v') :: rest, k, v =>
      if k' = k then (k, v) :: rest else (k', v') :: dictSet rest k v

/-- Python dict lookup / `in` test. -/
def dictGet? {α : Type} : List (String × α) → String → Option α
  | [], _ => none
  | (k', v') :: rest, k => if k' = k then some v' else dictGet? rest k

/-! ## File naming and globbing -/

/-- A name matched by the glob `base_*.parquet`. -/
def isBaseFile (name : String) : Bool :=
  pyStartsWith name "base_" && pyEndsWith name ".parquet"

/-- A name matched by the glob `delta_*.parquet`. -/
def isDeltaFile (name : String) : Bool :=
  pyStartsWith name "delta_" && pyEndsWith name ".parquet"

/-- A name matched by the glob `*.parquet`. -/
def isParquetFile (name : String) : Bool :=
  pyEndsWith name ".parquet"

/-- One step of Python `str.replace`: replace each non-overlapping
occurrence of `pat`, scanning left to right (fuel-indexed recursion on
the character list; `pat` is non-empty at every use site). -/
def replaceAux (pat rep : List Char) : ℕ → List Char → List Char
  | _, [] => []
  | 0, l => l
  | fuel + 1, c :: rest =>
      if pat.isPrefixOf (c :: rest) then
        rep ++ replaceAux pat rep fuel ((c :: rest).drop pat.length)
      else
        c :: replaceAux pat rep fuel rest

/-- Python `s.replace(pat, rep)` for a non-empty `pat`. -/
def pyReplace (s pat rep : String) : String :=
  String.mk (replaceAux pat.data rep.data s.data.length s.data)

/-- Python `sorted` on `(filename, rows)` pairs (a stable sort by name,
modelling Timsort on paths). -/
def sortByName (l : List (String × List Record)) : List (String × List Record) :=
  List.insertionSort (fun a b => a.1 ≤ b.1) l

/-! ## State reconstructor (`ParquetCatalog.load_current_state`) -/

/-- `ParquetCatalog._find_latest_base`: last element of the sorted
`base_*.parquet` glob. -/
def find_latest_base (dir : Dir) : Option (String × List Record) :=
  (sortByName (dir.filter (fun f => isBaseFile f.1))).getLast?

/-- `ParquetCatalog._find_deltas_after_base`: the sorted
`delta_*.parquet` glob, filtered to names after
`base_name.replace("base_", "delta_")`. -/
def find_deltas_after_base (dir : Dir) (base? : Option (String × List Record)) :
    List (String × List Record) :=
  match base? with
  | none => []
  | some b =>
      (sortByName (dir.filter (fun f => isDeltaFile f.1))).filter
        (fun d => pyReplace b.1 "base_" "delta_" < d.1)

/-- One delta row applied to the state map.  `record.pop("status", None)`
becomes `status := none`; a `"removed"` row mutates the existing entry in
place, any other row overwrites the entry with `on_disk = True`. -/
def applyDeltaRow (state : StateMap) (r : Record) : StateMap :=
  if r.status = some "removed" then
    match dictGet? state r.path with
    | some old =>
        dictSet state r.path { old with on_disk := some false, indexed_at := r.indexed_at }
    | none => state
  else
    dictSet state r.path { r with status := none, on_disk := some true }

/-- Loading the base rows into the map, keyed by each row's `path`. -/
def loadBaseRows (rows : List Record) : StateMap :=
  rows.foldl (fun st r => dictSet st r.path r) []

/-- `ParquetCatalog.load_current_state`: fold the applicable deltas, in
sorted filename order, over the rows of the latest base. -/
def load_current_state (dir : Dir) : StateMap :=
  match find_latest_base dir with
  | none => []
  | some b =>
      (find_deltas_after_base dir (some b)).foldl
        (fun st f => f.2.foldl applyDeltaRow st) (loadBaseRows b.2)

/-! ## Sorting facts used to relate globs to their specification -/

instance : IsTotal (String × List Record) (fun a b => a.1 ≤ b.1) :=
  ⟨fun a b => le_total a.1 b.1⟩

instance : IsTrans (String × List Record) (fun a b => a.1 ≤ b.1) :=
  ⟨fun _ _ _ h1 h2 => le_trans h1 h2⟩

instance : IsAntisymm (String × List Record) (fun a b => a.1 < b.1) :=
  ⟨fun _ _ h h' => absurd (lt_trans h h') (lt_irrefl _)⟩

theorem sortByName_perm (l : List (String × List Record)) : List.Perm (sortByName l) l :=
  List.perm_insertionSort _ l

theorem sortByName_sorted (l : List (String × List Record)) :
    (sortByName l).Sorted (fun a b => a.1 ≤ b.1) :=
  List.sorted_insertionSort _ l

theorem nodupNames_of_sublist {l l' : List (String × List Record)}
    (h : List.Sublist l' l) (hn : (l.map Prod.fst).Nodup) : (l'.map Prod.fst).Nodup :=
  (h.map Prod.fst).nodup hn

theorem nodupNames_of_perm {l l' : List (String × List Record)}
    (h : List.Perm l' l) (hn : (l.map Prod.fst).Nodup) : (l'.map Prod.fst).Nodup :=
  ((h.map Prod.fst).nodup_iff).mpr hn

theorem sorted_lt_of_le_nodup {l : List (String × List Record)}
    (hs : l.Sorted (fun a b => a.1 ≤ b.1)) (hn : (l.map Prod.fst).Nodup) :
    l.Sorted (fun a b => a.1 < b.1) := by
  have hp : l.Pairwise (fun a b => a.1 ≠ b.1) := (List.pairwise_map).mp hn
  exact (hs.and hp).imp (fun h => lt_of_le_of_ne h.1 h.2)

theorem getLast?_max_of_sorted :
    ∀ {l : List (String × List Record)}, l.Sorted (fun a b => a.1 ≤ b.1) →
      ∀ {m}, l.getLast? = some m → m ∈ l ∧ ∀ a ∈ l, a.1 ≤ m.1 := by
  intro l
  induction l with
  | nil => intro _ m h; simp at h
  | cons x t ih =>
    intro hs m hm
    cases t with
    | nil =>
      simp only [List.getLast?_singleton, Option.some.injEq] at hm
      subst hm
      exact ⟨List.mem_singleton.mpr rfl, by intro a ha; simp at ha; simp [ha]⟩
    | cons y t' =>
      rw [List.getLast?_cons_cons] at hm
      have hx := List.rel_of_sorted_cons hs
      obtain ⟨hmem, hbound⟩ := ih hs.of_cons hm
      refine ⟨List.mem_cons_of_mem _ hmem, ?_⟩
      intro a ha
      rcases List.mem_cons.mp ha with rfl | ha'
      · exact hx m hmem
      · exact hbound a ha'

theorem filter_sortByName (p : String × List Record → Bool)
    (l : List (String × List Record)) (hn : (l.map Prod.fst).Nodup) :
    (sortByName l).filter p = sortByName (l.filter p) := by
  have hperm : List.Perm ((sortByName l).filter p) (sortByName (l.filter p)) :=
    ((sortByName_perm l).filter p).trans (sortByName_perm (l.filter p)).symm
  have hn1 : (((sortByName l).filter p).map Prod.fst).Nodup :=
    nodupNames_of_sublist (List.filter_sublist _)
      (nodupNames_of_perm (sortByName_perm l) hn)
  have hn2 : ((sortByName (l.filter p)).map Prod.fst).Nodup :=
    nodupNames_of_perm (sortByName_perm _)
      (nodupNames_of_sublist (List.filter_sublist _) hn)
  exact List.eq_of_perm_of_sorted hperm
    (sorted_lt_of_le_nodup ((sortByName_sorted l).filter p) hn1)
    (sorted_lt_of_le_nodup (sortByName_sorted _) hn2)

theorem find_latest_base_eq_argmax (dir : Dir) (hn : (dir.map Prod.fst).Nodup) :
    find_latest_base dir = (dir.filter (fun f => isBaseFile f.1)).argmax (fun f => f.1) := by
  set l := dir.filter (fun f => isBaseFile f.1) with hl
  have hnl : (l.map Prod.fst).Nodup := nodupNames_of_sublist (List.filter_sublist dir) hn
  unfold find_latest_base
  rw [← hl]
  by_cases hemp : l = []
  · rw [hemp]
    simp [sortByName, List.insertionSort, List.argmax]
  · obtain ⟨m2, hm2⟩ : ∃ m2, l.argmax (fun f => f.1) = some m2 := by
      cases h : l.argmax (fun f => f.1) with
      | none => exact absurd (List.argmax_eq_none.mp h) hemp
      | some v => exact ⟨v, rfl⟩
    obtain ⟨m, hm⟩ : ∃ m, (sortByName l).getLast? = some m := by
      cases h : (sortByName l).getLast? with
      | none =>
        have h0 : sortByName l = [] := by
          cases hsl : sortByName l with
          | nil => rfl
          | cons a t => rw [hsl] at h; simp [List.getLast?] at h
        have hpl : List.Perm [] l := by rw [← h0]; exact sortByName_perm l
        have hlen : l.length = 0 := by rw [← hpl.length_eq]; rfl
        exact absurd (List.length_eq_zero.mp hlen) hemp
      | some v => exact ⟨v, rfl⟩
    rw [hm, hm2]
    have c1 := getLast?_max_of_sorted (sortByName_sorted l) hm
    have hmem : m ∈ l := (sortByName_perm l).subset c1.1
    have hb1 : ∀ a ∈ l, a.1 ≤ m.1 := fun a ha =>
      c1.2 a ((sortByName_perm l).symm.subset ha)
    have hmm : m2 ∈ l.argmax (fun f => f.1) := by
      rw [Option.mem_def]
      exact hm2
    have hmem2 : m2 ∈ l := List.argmax_mem hmm
    have hb2 : ∀ a ∈ l, a.1 ≤ m2.1 := fun a ha =>
      le_of_not_lt (List.not_lt_of_mem_argmax ha hmm)
    have hnames : m.1 = m2.1 := le_antisymm (hb2 m hmem) (hb1 m2 hmem2)
    rw [List.inj_on_of_nodup_map hnl hmem hmem2 hnames]

/-! ## C1: specification-side reconstruction -/

/-- The lexicographically greatest `base_*` file of the directory, as the
claim words it. -/
def greatestBase (dir : Dir) : Option (String × List Record) :=
  (dir.filter (fun f => isBaseFile f.1)).argmax (fun f => f.1)

/-- Reconstruction as the claim describes it: rows of the greatest base,
then every `delta_*` file whose name is strictly greater than the base's
name with the `base_` prefix replaced by `delta_`, applied in
lexicographic filename order. -/
def load_current_state_claim (dir : Dir) : StateMap :=
  match greatestBase dir with
  | none => []
  | some b =>
      (sortByName ((dir.filter (fun f => isDeltaFile f.1)).filter
          (fun d => pyReplace b.1 "base_" "delta_" < d.1))).foldl
        (fun st f => f.2.foldl applyDeltaRow st) (loadBaseRows b.2)

/-- C1: on a directory with distinct filenames, `load_current_state`
returns the map obtained from the lexicographically greatest `base_*`
file (empty if none exists, regardless of deltas), folding the
strictly-later `delta_*` files in lexicographic order; a `removed` row
with a present path sets `on_disk := false` and refreshes `indexed_at`,
a `removed` row with an absent path is ignored, and an `added` or
`modified` row overwrites the entry with `on_disk := true`. -/
theorem load_current_state_matches_claim (dir : Dir)
    (hn : (dir.map Prod.fst).Nodup) :
    load_current_state dir = load_current_state_claim dir ∧
    (∀ (st : StateMap) (r old : Record), r.status = some "removed" →
        dictGet? st r.path = some old →
        applyDeltaRow st r =
          dictSet st r.path { old with on_disk := some false, indexed_at := r.indexed_at }) ∧
    (∀ (st : StateMap) (r : Record), r.status = some "removed" →
        dictGet? st r.path = none → applyDeltaRow st r = st) ∧
    (∀ (st : StateMap) (r : Record),
        r.status = some "added" ∨ r.status = some "modified" →
        applyDeltaRow st r = dictSet st r.path { r with status := none, on_disk := some true }) := by
  refine ⟨?_, ?_, ?_, ?_⟩
  · unfold load_current_state load_current_state_claim greatestBase
    rw [find_latest_base_eq_argmax dir hn]
    cases hgb : (dir.filter (fun f => isBaseFile f.1)).argmax (fun f => f.1) with
    | none => rfl
    | some b =>
      dsimp only
      unfold find_deltas_after_base
      dsimp only
      rw [filter_sortByName _ _ (nodupNames_of_sublist (List.filter_sublist dir) hn)]
  · intro st r old hrem hold
    unfold applyDeltaRow
    rw [if_pos hrem, hold]
  · intro st r hrem hnone
    unfold applyDeltaRow
    rw [if_pos hrem, hnone]
  · intro st r h
    unfold applyDeltaRow
    rw [if_neg]
    rcases h with h | h <;> simp [h]

/-- Witness for C1 on a concrete two-file directory: one base with one
row and one later delta marking the row removed. -/
theorem load_current_state_matches_claim_witness :
    (let r0 : Record :=
      { path := "/d/a", parent_path := "/d", filename := "a", size := some 1,
        mtime := some 10, owner := some "0", group_name := some "0",
        permissions := some 33188, checksum := none, experiment := some "e",
        run := none, indexed_at := "2024-01-01T000000.000001",
        on_disk := some true, status := none }
     let r1 : Record :=
      { path := "/d/a", parent_path := "/d", filename := "a", size := some 1,
        mtime := some 10, owner := some "0", group_name := some "0",
        permissions := some 33188, checksum := none, experiment := some "e",
        run := none, indexed_at := "2024-01-02T000000.000001",
        on_disk := none, status := some "removed" }
     let dir : Dir :=
      [("base_2024-01-01T000000.000001.parquet", [r0]),
       ("delta_2024-01-02T000000.000001.parquet", [r1])]
     (dir.map Prod.fst).Nodup ∧ load_current_state dir = load_current_state_claim dir) := by
  refine ⟨by decide, ?_⟩
  exact (load_current_state_matches_claim _ (by decide)).1

/-! ## Delta computer (`ParquetCatalog._write_delta`, `_file_changed`) -/

/-- `ParquetCatalog._file_changed`: size or mtime differs (checksum is
never consulted). -/
def file_changed (current previous : Record) : Bool :=
  decide (current.size ≠ previous.size) || decide (current.mtime ≠ previous.mtime)

/-- One step of the added/modified loop of `_write_delta`, carried over
`(delta_records, added, modified)`. -/
def addedModifiedFold (previous : StateMap) (acc : List Record × ℕ × ℕ)
    (pm : String × Record) : List Record × ℕ × ℕ :=
  match dictGet? previous pm.1 with
  | none =>
      (acc.1 ++ [{ pm.2 with status := some "added", on_disk := none }],
        acc.2.1 + 1, acc.2.2)
  | some prev =>
      if !(pyTruthy prev.on_disk) then
        (acc.1 ++ [{ pm.2 with status := some "added", on_disk := none }],
          acc.2.1 + 1, acc.2.2)
      else if file_changed pm.2 prev then
        (acc.1 ++ [{ pm.2 with status := some "modified", on_disk := none }],
          acc.2.1, acc.2.2 + 1)
      else acc

/-- The removed row literal built by `_write_delta`: the previous
metadata with a fresh `indexed_at`, `status="removed"`, `on_disk=None`. -/
def removedRow (ts : String) (p : String) (prev : Record) : Record :=
  { path := p, parent_path := prev.parent_path, filename := prev.filename,
    size := prev.size, mtime := prev.mtime, owner := prev.owner,
    group_name := prev.group_name, permissions := prev.permissions,
    checksum := prev.checksum, experiment := prev.experiment, run := prev.run,
    indexed_at := ts, on_disk := none, status := some "removed" }

/-- One step of the removed loop of `_write_delta`. -/
def removedFold (current : StateMap) (ts : String) (acc : List Record × ℕ)
    (pr : String × Record) : List Record × ℕ :=
  if (dictGet? current pr.1).isNone && pyTruthy pr.2.on_disk then
    (acc.1 ++ [removedRow ts pr.1 pr.2], acc.2 + 1)
  else acc

/-- `ParquetCatalog._write_delta`: the `(added, modified, removed)`
triple and the delta file written, if any. -/
def write_delta (ts : String) (current previous : StateMap) :
    (ℕ × ℕ × ℕ) × Option (String × List Record) :=
  let am := current.foldl (addedModifiedFold previous) ([], 0, 0)
  let rm := previous.foldl (removedFold current ts) (am.1, 0)
  if rm.1 = [] then ((0, 0, 0), none)
  else ((am.2.1, am.2.2, rm.2), some ("delta_" ++ ts ++ ".parquet", rm.1))

/-- The condition under which the code's added/modified loop emits an
`added` row for an entry of `current`. -/
def addedDecisionB (previous : StateMap) (pm : String × Record) : Bool :=
  match dictGet? previous pm.1 with
  | none => true
  | some prev => !(pyTruthy prev.on_disk)

/-- The condition under which the code's added/modified loop emits a
`modified` row for an entry of `current`. -/
def modifiedDecisionB (previous : StateMap) (pm : String × Record) : Bool :=
  match dictGet? previous pm.1 with
  | none => false
  | some prev => pyTruthy prev.on_disk && file_changed pm.2 prev

/-- The condition under which the code's removed loop emits a `removed`
row for an entry of `previous`. -/
def removedDecisionB (current : StateMap) (pr : String × Record) : Bool :=
  (dictGet? current pr.1).isNone && pyTruthy pr.2.on_disk

/-- C2's added set, in the claim's words: the path is in `current` and
either absent from `previous` or present with `on_disk = false`. -/
def claimAddedB (current previous : StateMap) (p : String) : Bool :=
  (dictGet? current p).isSome &&
    match dictGet? previous p with
    | none => true
    | some r => decide (r.on_disk = some false)

/-- C2's modified set: present in both, previous `on_disk = true`, and
size or mtime differs (never the checksum). -/
def claimModifiedB (current previous : StateMap) (p : String) : Bool :=
  match dictGet? current p, dictGet? previous p with
  | some c, some r => decide (r.on_disk = some true) && file_changed c r
  | _, _ => false

/-- C2's removed set: in `previous` with `on_disk = true`, absent from
`current`. -/
def claimRemovedB (current previous : StateMap) (p : String) : Bool :=
  match dictGet? previous p with
  | none => false
  | some r => decide (r.on_disk = some true) && (dictGet? current p).isNone

/-! ## Dict lookup facts -/

theorem dictGet?_of_mem_nodup :
    ∀ {l : StateMap}, (l.map Prod.fst).Nodup →
      ∀ {pm : String × Record}, pm ∈ l → dictGet? l pm.1 = some pm.2 := by
  intro l
  induction l with
  | nil => intro _ pm h; simp at h
  | cons hd tl ih =>
    intro hn pm hm
    rcases List.mem_cons.mp hm with rfl | hm'
    · simp [dictGet?]
    · have hne : hd.1 ≠ pm.1 := by
        intro he
        have : pm.1 ∈ tl.map Prod.fst := List.mem_map_of_mem Prod.fst hm'
        rw [List.map_cons] at hn
        exact (List.nodup_cons.mp hn).1 (he ▸ this)
      simp only [dictGet?, if_neg hne]
      exact ih (List.nodup_cons.mp (List.map_cons _ hd tl ▸ hn)).2 hm'

theorem mem_of_dictGet? :
    ∀ {l : StateMap} {k : String} {v : Record}, dictGet? l k = some v → (k, v) ∈ l := by
  intro l
  induction l with
  | nil => intro k v h; simp [dictGet?] at h
  | cons hd tl ih =>
    intro k v h
    simp only [dictGet?] at h
    by_cases he : hd.1 = k
    · rw [if_pos he] at h
      injection h with hv
      have hkv : (k, v) = hd := by rw [← he, ← hv]
      exact hkv ▸ List.mem_cons_self hd tl
    · rw [if_neg he] at h
      exact List.mem_cons_of_mem _ (ih h)

/-! ## Fold characterisations for the delta computer -/

/-- The `added` row emitted for a walked entry. -/
def addedRowOf (pm : String × Record) : Record :=
  { pm.2 with status := some "added", on_disk := none }

/-- The `modified` row emitted for a walked entry. -/
def modifiedRowOf (pm : String × Record) : Record :=
  { pm.2 with status := some "modified", on_disk := none }

theorem addedModifiedFold_step_new {previous : StateMap} {pm : String × Record}
    (hp : dictGet? previous pm.1 = none) (acc : List Record × ℕ × ℕ) :
    addedModifiedFold previous acc pm =
      (acc.1 ++ [addedRowOf pm], acc.2.1 + 1, acc.2.2) := by
  unfold addedModifiedFold addedRowOf
  rw [hp]

theorem addedModifiedFold_step_restore {previous : StateMap} {pm : String × Record}
    {prev : Record} (hp : dictGet? previous pm.1 = some prev)
    (htr : pyTruthy prev.on_disk = false) (acc : List Record × ℕ × ℕ) :
    addedModifiedFold previous acc pm =
      (acc.1 ++ [addedRowOf pm], acc.2.1 + 1, acc.2.2) := by
  unfold addedModifiedFold addedRowOf
  rw [hp]
  simp [htr]

theorem addedModifiedFold_step_modified {previous : StateMap} {pm : String × Record}
    {prev : Record} (hp : dictGet? previous pm.1 = some prev)
    (htr : pyTruthy prev.on_disk = true) (hch : file_changed pm.2 prev = true)
    (acc : List Record × ℕ × ℕ) :
    addedModifiedFold previous acc pm =
      (acc.1 ++ [modifiedRowOf pm], acc.2.1, acc.2.2 + 1) := by
  unfold addedModifiedFold modifiedRowOf
  rw [hp]
  simp [htr, hch]

theorem addedModifiedFold_step_skip {previous : StateMap} {pm : String × Record}
    {prev : Record} (hp : dictGet? previous pm.1 = some prev)
    (htr : pyTruthy prev.on_disk = true) (hch : file_changed pm.2 prev = false)
    (acc : List Record × ℕ × ℕ) :
    addedModifiedFold previous acc pm = acc := by
  unfold addedModifiedFold
  rw [hp]
  simp [htr, hch]

theorem addedDecisionB_eq_true_of_none {previous : StateMap} {pm : String × Record}
    (hp : dictGet? previous pm.1 = none) : addedDecisionB previous pm = true := by
  unfold addedDecisionB
  rw [hp]

theorem addedDecisionB_eq_of_some {previous : StateMap} {pm : String × Record}
    {prev : Record} (hp : dictGet? previous pm.1 = some prev) :
    addedDecisionB previous pm = !(pyTruthy prev.on_disk) := by
  unfold addedDecisionB
  rw [hp]

theorem modifiedDecisionB_eq_false_of_none {previous : StateMap} {pm : String × Record}
    (hp : dictGet? previous pm.1 = none) : modifiedDecisionB previous pm = false := by
  unfold modifiedDecisionB
  rw [hp]

theorem modifiedDecisionB_eq_of_some {previous : StateMap} {pm : String × Record}
    {prev : Record} (hp : dictGet? previous pm.1 = some prev) :
    modifiedDecisionB previous pm = (pyTruthy prev.on_disk && file_changed pm.2 prev) := by
  unfold modifiedDecisionB
  rw [hp]

theorem addedModifiedFold_spec (previous : StateMap) :
    ∀ (l : List (String × Record)) (acc : List Record × ℕ × ℕ),
      (l.foldl (addedModifiedFold previous) acc).2.1 =
          acc.2.1 + (l.filter (addedDecisionB previous)).length ∧
      (l.foldl (addedModifiedFold previous) acc).2.2 =
          acc.2.2 + (l.filter (modifiedDecisionB previous)).length ∧
      ∃ emitted : List Record,
        (l.foldl (addedModifiedFold previous) acc).1 = acc.1 ++ emitted ∧
        emitted.length = (l.filter (addedDecisionB previous)).length +
          (l.filter (modifiedDecisionB previous)).length ∧
        ∀ r ∈ emitted, r.status = some "added" ∨ r.status = some "modified" := by
  intro l
  induction l with
  | nil =>
    intro acc
    refine ⟨by simp, by simp, [], by simp, by simp, by simp⟩
  | cons pm tl ih =>
    intro acc
    rw [List.foldl_cons]
    cases hp : dictGet? previous pm.1 with
    | none =>
      rw [addedModifiedFold_step_new hp]
      obtain ⟨h1, h2, emitted, he, hlen, hstat⟩ :=
        ih (acc.1 ++ [addedRowOf pm], acc.2.1 + 1, acc.2.2)
      refine ⟨?_, ?_, addedRowOf pm :: emitted, ?_, ?_, ?_⟩
      · rw [h1]
        simp [List.filter_cons, addedDecisionB_eq_true_of_none hp]
        omega
      · rw [h2]
        simp [List.filter_cons, modifiedDecisionB_eq_false_of_none hp]
      · rw [he]
        simp
      · simp [List.filter_cons, addedDecisionB_eq_true_of_none hp,
          modifiedDecisionB_eq_false_of_none hp, hlen]
        omega
      · intro r hr
        rcases List.mem_cons.mp hr with rfl | hr'
        · left; rfl
        · exact hstat r hr'
    | some prev =>
      cases htr : pyTruthy prev.on_disk with
      | false =>
        rw [addedModifiedFold_step_restore hp htr]
        obtain ⟨h1, h2, emitted, he, hlen, hstat⟩ :=
          ih (acc.1 ++ [addedRowOf pm], acc.2.1 + 1, acc.2.2)
        refine ⟨?_, ?_, addedRowOf pm :: emitted, ?_, ?_, ?_⟩
        · rw [h1]
          simp [List.filter_cons, addedDecisionB_eq_of_some hp, htr]
          omega
        · rw [h2]
          simp [List.filter_cons, modifiedDecisionB_eq_of_some hp, htr]
        · rw [he]
          simp
        · simp [List.filter_cons, addedDecisionB_eq_of_some hp,
            modifiedDecisionB_eq_of_some hp, htr, hlen]
          omega
        · intro r hr
          rcases List.mem_cons.mp hr with rfl | hr'
          · left; rfl
          · exact hstat r hr'
      | true =>
        cases hch : file_changed pm.2 prev with
        | true =>
          rw [addedModifiedFold_step_modified hp htr hch]
          obtain ⟨h1, h2, emitted, he, hlen, hstat⟩ :=
            ih (acc.1 ++ [modifiedRowOf pm], acc.2.1, acc.2.2 + 1)
          refine ⟨?_, ?_, modifiedRowOf pm :: emitted, ?_, ?_, ?_⟩
          · rw [h1]
            simp [List.filter_cons, addedDecisionB_eq_of_some hp, htr]
          · rw [h2]
            simp [List.filter_cons, modifiedDecisionB_eq_of_some hp, htr, hch]
            omega
          · rw [he]
            simp
          · simp [List.filter_cons, addedDecisionB_eq_of_some hp,
              modifiedDecisionB_eq_of_some hp, htr, hch, hlen]
            omega
          · intro r hr
            rcases List.mem_cons.mp hr with rfl | hr'
            · right; rfl
            · exact hstat r hr'
        | false =>
          rw [addedModifiedFold_step_skip hp htr hch]
          obtain ⟨h1, h2, emitted, he, hlen, hstat⟩ := ih acc
          refine ⟨?_, ?_, emitted, he, ?_, hstat⟩
          · rw [h1]
            simp [List.filter_cons, addedDecisionB_eq_of_some hp, htr]
          · rw [h2]
            simp [List.filter_cons, modifiedDecisionB_eq_of_some hp, htr, hch]
          · simp [List.filter_cons, addedDecisionB_eq_of_some hp,
              modifiedDecisionB_eq_of_some hp, htr, hch, hlen]

theorem removedFold_step_emit {current : StateMap} {ts : String} {pr : String × Record}
    (hd : ((dictGet? current pr.1).isNone && pyTruthy pr.2.on_disk) = true)
    (acc : List Record × ℕ) :
    removedFold current ts acc pr = (acc.1 ++ [removedRow ts pr.1 pr.2], acc.2 + 1) := by
  unfold removedFold
  rw [hd]
  simp

theorem removedFold_step_skip {current : StateMap} {ts : String} {pr : String × Record}
    (hd : ((dictGet? current pr.1).isNone && pyTruthy pr.2.on_disk) = false)
    (acc : List Record × ℕ) :
    removedFold current ts acc pr = acc := by
  unfold removedFold
  rw [hd]
  simp

theorem removedFold_spec (current : StateMap) (ts : String) :
    ∀ (l : List (String × Record)) (acc : List Record × ℕ),
      (l.foldl (removedFold current ts) acc).2 =
          acc.2 + (l.filter (removedDecisionB current)).length ∧
      ∃ emitted : List Record,
        (l.foldl (removedFold current ts) acc).1 = acc.1 ++ emitted ∧
        emitted.length = (l.filter (removedDecisionB current)).length ∧
        ∀ r ∈ emitted, ∃ pr, pr ∈ l ∧ removedDecisionB current pr = true ∧
          r = removedRow ts pr.1 pr.2 := by
  intro l
  induction l with
  | nil =>
    intro acc
    refine ⟨by simp, [], by simp, by simp, by simp⟩
  | cons pr tl ih =>
    intro acc
    rw [List.foldl_cons]
    cases hd : ((dictGet? current pr.1).isNone && pyTruthy pr.2.on_disk : Bool) with
    | true =>
      rw [removedFold_step_emit hd]
      obtain ⟨h1, emitted, he, hlen, hsrc⟩ := ih (acc.1 ++ [removedRow ts pr.1 pr.2], acc.2 + 1)
      refine ⟨?_, removedRow ts pr.1 pr.2 :: emitted, ?_, ?_, ?_⟩
      · rw [h1]
        simp [List.filter_cons, removedDecisionB, hd]
        omega
      · rw [he]
        simp
      · simp [List.filter_cons, removedDecisionB, hd, hlen]
      · intro r hr
        rcases List.mem_cons.mp hr with rfl | hr2
        · exact ⟨pr, List.mem_cons_self _ _, by simpa [removedDecisionB] using hd, rfl⟩
        · obtain ⟨pr2, hmem, hdec, hreq⟩ := hsrc r hr2
          exact ⟨pr2, List.mem_cons_of_mem _ hmem, hdec, hreq⟩
    | false =>
      rw [removedFold_step_skip hd]
      obtain ⟨h1, emitted, he, hlen, hsrc⟩ := ih acc
      refine ⟨?_, emitted, he, ?_, ?_⟩
      · rw [h1]
        simp [List.filter_cons, removedDecisionB, hd]
      · simp [List.filter_cons, removedDecisionB, hd, hlen]
      · intro r hr
        obtain ⟨pr2, hmem, hdec, hreq⟩ := hsrc r hr
        exact ⟨pr2, List.mem_cons_of_mem _ hmem, hdec, hreq⟩

/-- C2: the delta computer emits exactly the claim's three disjoint sets
(added/modified/removed, with restoration counted as add and the
checksum never a change criterion), returns their cardinalities as the
snapshot triple, carries previous metadata with a fresh `indexed_at` on
removed rows, and writes no delta file exactly when all three counts are
zero. -/
theorem write_delta_matches_claim (ts : String) (current previous : StateMap)
    (hcur : (current.map Prod.fst).Nodup) (hprev : (previous.map Prod.fst).Nodup)
    (hwf : ∀ pr ∈ previous, ∃ b, pr.2.on_disk = some b) :
    (write_delta ts current previous).1.1 =
      (current.filter (fun pm => claimAddedB current previous pm.1)).length ∧
    (write_delta ts current previous).1.2.1 =
      (current.filter (fun pm => claimModifiedB current previous pm.1)).length ∧
    (write_delta ts current previous).1.2.2 =
      (previous.filter (fun pr => claimRemovedB current previous pr.1)).length ∧
    (∀ p, ¬(claimAddedB current previous p = true ∧
        claimModifiedB current previous p = true)) ∧
    (∀ p, ¬(claimAddedB current previous p = true ∧
        claimRemovedB current previous p = true)) ∧
    (∀ p, ¬(claimModifiedB current previous p = true ∧
        claimRemovedB current previous p = true)) ∧
    (∀ file, (write_delta ts current previous).2 = some file →
      ∀ r ∈ file.2, r.status = some "removed" →
        ∃ pr, pr ∈ previous ∧ claimRemovedB current previous pr.1 = true ∧
          r = removedRow ts pr.1 pr.2) ∧
    ((write_delta ts current previous).1 = (0, 0, 0) ↔
      (write_delta ts current previous).2 = none) := by
  have hAeq : ∀ pm ∈ current, addedDecisionB previous pm =
      claimAddedB current previous pm.1 := by
    intro pm hm
    have hc := dictGet?_of_mem_nodup hcur hm
    unfold claimAddedB
    rw [hc]
    cases hp : dictGet? previous pm.1 with
    | none => simp [addedDecisionB_eq_true_of_none hp]
    | some prev =>
      obtain ⟨b, hb⟩ := hwf (pm.1, prev) (mem_of_dictGet? hp)
      have hb2 : prev.on_disk = some b := hb
      rw [addedDecisionB_eq_of_some hp]
      cases b <;> simp [hb2, pyTruthy]
  have hMeq : ∀ pm ∈ current, modifiedDecisionB previous pm =
      claimModifiedB current previous pm.1 := by
    intro pm hm
    have hc := dictGet?_of_mem_nodup hcur hm
    unfold claimModifiedB
    rw [hc]
    cases hp : dictGet? previous pm.1 with
    | none => simp [modifiedDecisionB_eq_false_of_none hp]
    | some prev =>
      obtain ⟨b, hb⟩ := hwf (pm.1, prev) (mem_of_dictGet? hp)
      have hb2 : prev.on_disk = some b := hb
      rw [modifiedDecisionB_eq_of_some hp]
      cases b <;> simp [hb2, pyTruthy]
  have hReq : ∀ pr ∈ previous, removedDecisionB current pr =
      claimRemovedB current previous pr.1 := by
    intro pr hm
    have hpv := dictGet?_of_mem_nodup hprev hm
    unfold claimRemovedB removedDecisionB
    rw [hpv]
    obtain ⟨b, hb⟩ := hwf pr hm
    cases b <;> simp [hb, pyTruthy, Bool.and_comm]
  have hAf : current.filter (addedDecisionB previous) =
      current.filter (fun pm => claimAddedB current previous pm.1) :=
    List.filter_congr hAeq
  have hMf : current.filter (modifiedDecisionB previous) =
      current.filter (fun pm => claimModifiedB current previous pm.1) :=
    List.filter_congr hMeq
  have hRf : previous.filter (removedDecisionB current) =
      previous.filter (fun pr => claimRemovedB current previous pr.1) :=
    List.filter_congr hReq
  obtain ⟨ha1, ha2, e1, he1, hlen1, hstat1⟩ :=
    addedModifiedFold_spec previous current ([], 0, 0)
  obtain ⟨hr1, e2, he2, hlen2, hsrc2⟩ := removedFold_spec current ts previous
    ((current.foldl (addedModifiedFold previous) ([], 0, 0)).1, 0)
  have hdisj1 : ∀ p, ¬(claimAddedB current previous p = true ∧
      claimModifiedB current previous p = true) := by
    intro p hcontra
    obtain ⟨h1, h2⟩ := hcontra
    unfold claimAddedB at h1
    unfold claimModifiedB at h2
    cases hc : dictGet? current p with
    | none => rw [hc] at h1; simp at h1
    | some c =>
      rw [hc] at h1 h2
      cases hp : dictGet? previous p with
      | none => rw [hp] at h2; simp at h2
      | some r =>
        rw [hp] at h1 h2
        simp at h1 h2
        rw [h1] at h2
        simp at h2
  have hdisj2 : ∀ p, ¬(claimAddedB current previous p = true ∧
      claimRemovedB current previous p = true) := by
    intro p hcontra
    obtain ⟨h1, h2⟩ := hcontra
    unfold claimAddedB at h1
    unfold claimRemovedB at h2
    cases hc : dictGet? current p with
    | none => rw [hc] at h1; simp at h1
    | some c =>
      rw [hc] at h1 h2
      cases hp : dictGet? previous p with
      | none => rw [hp] at h2; simp at h2
      | some r =>
        rw [hp] at h1 h2
        simp at h1 h2
  have hdisj3 : ∀ p, ¬(claimModifiedB current previous p = true ∧
      claimRemovedB current previous p = true) := by
    intro p hcontra
    obtain ⟨h1, h2⟩ := hcontra
    unfold claimModifiedB at h1
    unfold claimRemovedB at h2
    cases hc : dictGet? current p with
    | none => rw [hc] at h1; simp at h1
    | some c =>
      rw [hc] at h1 h2
      cases hp : dictGet? previous p with
      | none => rw [hp] at h1; simp at h1
      | some r =>
        rw [hp] at h1 h2
        simp at h1 h2
  set am := current.foldl (addedModifiedFold previous) ([], 0, 0) with ham
  set rm := previous.foldl (removedFold current ts) (am.1, 0) with hrm
  have hwd : write_delta ts current previous =
      if rm.1 = [] then ((0, 0, 0), none)
      else ((am.2.1, am.2.2, rm.2), some ("delta_" ++ ts ++ ".parquet", rm.1)) := rfl
  have hrm1 : rm.1 = e1 ++ e2 := by
    rw [he2, he1]
    simp
  by_cases hempty : rm.1 = []
  · have he1nil : e1 = [] := by
      rw [hrm1] at hempty
      exact List.append_eq_nil.mp hempty |>.1
    have he2nil : e2 = [] := by
      rw [hrm1] at hempty
      exact List.append_eq_nil.mp hempty |>.2
    have hzA : (current.filter (addedDecisionB previous)).length = 0 ∧
        (current.filter (modifiedDecisionB previous)).length = 0 := by
      have := hlen1
      rw [he1nil] at this
      simp at this
      omega
    have hzR : (previous.filter (removedDecisionB current)).length = 0 := by
      have := hlen2
      rw [he2nil] at this
      simp at this
      omega
    rw [hwd, if_pos hempty]
    refine ⟨?_, ?_, ?_, hdisj1, hdisj2, hdisj3, ?_, ?_⟩
    · rw [← hAf]
      simpa using hzA.1.symm
    · rw [← hMf]
      simpa using hzA.2.symm
    · rw [← hRf]
      simpa using hzR.symm
    · intro file hf
      simp at hf
    · simp
  · rw [hwd, if_neg hempty]
    refine ⟨?_, ?_, ?_, hdisj1, hdisj2, hdisj3, ?_, ?_⟩
    · rw [← hAf]
      simpa using ha1
    · rw [← hMf]
      simpa using ha2
    · rw [← hRf]
      simpa using hr1
    · intro file hf r hrmem hrstat
      simp only [Option.some.injEq] at hf
      rw [← hf] at hrmem
      simp only at hrmem
      rw [hrm1] at hrmem
      rcases List.mem_append.mp hrmem with hr1' | hr2'
      · rcases hstat1 r hr1' with h | h <;> rw [h] at hrstat <;> simp at hrstat
      · obtain ⟨pr, hmem, hdec, hreq⟩ := hsrc2 r hr2'
        exact ⟨pr, hmem, by rw [← hReq pr hmem]; exact hdec, hreq⟩
    · constructor
      · intro h
        exfalso
        have h1 : am.2.1 = 0 := by
          have := congrArg Prod.fst h
          simpa using this
        have h2 : am.2.2 = 0 := by
          have := congrArg (fun t => t.2.1) h
          simpa using this
        have h3 : rm.2 = 0 := by
          have := congrArg (fun t => t.2.2) h
          simpa using this
        rw [ha1] at h1
        rw [ha2] at h2
        rw [hr1] at h3
        have : e1.length = 0 := by omega
        have : e2.length = 0 := by omega
        apply hempty
        rw [hrm1]
        have hle1 : e1 = [] := by
          apply List.eq_nil_of_length_eq_zero
          omega
        have hle2 : e2 = [] := by
          apply List.eq_nil_of_length_eq_zero
          omega
        rw [hle1, hle2]
        rfl
      · intro h
        simp at h

/-- Witness for C2 on concrete maps: one modified file and one removed
file. -/
theorem write_delta_matches_claim_witness :
    (let ra : Record := { path := "/d/a", parent_path := "/d", filename := "a", size := some 1, mtime := some 10, owner := some "0", group_name := some "0", permissions := some 33188, checksum := none, experiment := some "e", run := none, indexed_at := "t1", on_disk := some true, status := none }
     let rb : Record := { ra with path := "/d/b", filename := "b" }
     let ra2 : Record := { ra with size := some 2, on_disk := none, indexed_at := "t2" }
     let current : StateMap := [("/d/a", ra2)]
     let previous : StateMap := [("/d/a", ra), ("/d/b", rb)]
     ((current.map Prod.fst).Nodup ∧ (previous.map Prod.fst).Nodup ∧
       (∀ pr ∈ previous, ∃ b, pr.2.on_disk = some b)) ∧
     (write_delta "t2" current previous).1.1 =
       (current.filter (fun pm => claimAddedB current previous pm.1)).length) := by
  refine ⟨⟨by decide, by decide, by decide⟩, ?_⟩
  exact (write_delta_matches_claim "t2" _ _ (by decide) (by decide) (by decide)).1

/-! ## Dict update facts -/

theorem mem_dictSet {α : Type} :
    ∀ {st : List (String × α)} {k : String} {v : α} {e : String × α},
      e ∈ dictSet st k v → e = (k, v) ∨ e ∈ st := by
  intro st
  induction st with
  | nil => intro k v e h; simp [dictSet] at h; simp [h]
  | cons hd tl ih =>
    intro k v e h
    unfold dictSet at h
    by_cases he : hd.1 = k
    · rw [if_pos he] at h
      rcases List.mem_cons.mp h with rfl | h'
      · exact Or.inl rfl
      · exact Or.inr (List.mem_cons_of_mem _ h')
    · rw [if_neg he] at h
      rcases List.mem_cons.mp h with rfl | h'
      · exact Or.inr (List.mem_cons_self _ _)
      · rcases ih h' with h'' | h''
        · exact Or.inl h''
        · exact Or.inr (List.mem_cons_of_mem _ h'')

theorem mem_keys_dictSet {α : Type} :
    ∀ {st : List (String × α)} {k : String} {v : α} {a : String},
      a ∈ (dictSet st k v).map Prod.fst ↔ a = k ∨ a ∈ st.map Prod.fst := by
  intro st
  induction st with
  | nil => intro k v a; simp [dictSet]
  | cons hd tl ih =>
    intro k v a
    unfold dictSet
    by_cases he : hd.1 = k
    · rw [if_pos he]
      simp [he]
    · rw [if_neg he]
      simp only [List.map_cons, List.mem_cons, ih]
      tauto

theorem nodup_keys_dictSet {α : Type} :
    ∀ {st : List (String × α)} (k : String) (v : α),
      (st.map Prod.fst).Nodup → ((dictSet st k v).map Prod.fst).Nodup := by
  intro st
  induction st with
  | nil => intro k v _; simp [dictSet]
  | cons hd tl ih =>
    intro k v hn
    rw [List.map_cons, List.nodup_cons] at hn
    unfold dictSet
    by_cases he : hd.1 = k
    · rw [if_pos he]
      rw [List.map_cons, List.nodup_cons]
      exact ⟨he ▸ hn.1, hn.2⟩
    · rw [if_neg he]
      rw [List.map_cons, List.nodup_cons]
      refine ⟨?_, ih k v hn.2⟩
      intro hmem
      rcases mem_keys_dictSet.mp hmem with h | h
      · exact he (by simpa using h)
      · exact hn.1 (by simpa using h)

theorem dictSet_append_of_not_mem {α : Type} :
    ∀ {st : List (String × α)} {k : String} (v : α),
      k ∉ st.map Prod.fst → dictSet st k v = st ++ [(k, v)] := by
  intro st
  induction st with
  | nil => intro k v _; simp [dictSet]
  | cons hd tl ih =>
    intro k v hk
    rw [List.map_cons, List.mem_cons] at hk
    push_neg at hk
    unfold dictSet
    rw [if_neg (fun he => hk.1 he.symm)]
    rw [ih v hk.2]
    rfl

/-! ## Invariants of the reconstructed state -/

/-- Every entry of the map is keyed by its record's `path`. -/
def pathsConsistent (st : StateMap) : Prop := ∀ e ∈ st, e.2.path = e.1

theorem pathsConsistent_nil : pathsConsistent [] := by
  intro e he
  simp at he

theorem pathsConsistent_dictSet {st : StateMap} (h : pathsConsistent st)
    {k : String} {r : Record} (hr : r.path = k) : pathsConsistent (dictSet st k r) := by
  intro e he
  rcases mem_dictSet he with rfl | he'
  · exact hr
  · exact h e he'

theorem applyDeltaRow_inv {st : StateMap} (hp : pathsConsistent st)
    (hn : (st.map Prod.fst).Nodup) (r : Record) :
    pathsConsistent (applyDeltaRow st r) ∧
      ((applyDeltaRow st r).map Prod.fst).Nodup := by
  unfold applyDeltaRow
  by_cases hrem : r.status = some "removed"
  · rw [if_pos hrem]
    cases hold : dictGet? st r.path with
    | none => exact ⟨hp, hn⟩
    | some old =>
      have hmem := mem_of_dictGet? hold
      have hpath : old.path = r.path := hp _ hmem
      exact ⟨pathsConsistent_dictSet hp hpath, nodup_keys_dictSet _ _ hn⟩
  · rw [if_neg hrem]
    exact ⟨pathsConsistent_dictSet hp rfl, nodup_keys_dictSet _ _ hn⟩

theorem foldDeltaRows_inv {st : StateMap} (hp : pathsConsistent st)
    (hn : (st.map Prod.fst).Nodup) (rows : List Record) :
    pathsConsistent (rows.foldl applyDeltaRow st) ∧
      ((rows.foldl applyDeltaRow st).map Prod.fst).Nodup := by
  induction rows generalizing st with
  | nil => exact ⟨hp, hn⟩
  | cons r tl ih =>
    rw [List.foldl_cons]
    obtain ⟨hp', hn'⟩ := applyDeltaRow_inv hp hn r
    exact ih hp' hn'

theorem loadBaseRows_inv (rows : List Record) :
    pathsConsistent (loadBaseRows rows) ∧
      ((loadBaseRows rows).map Prod.fst).Nodup := by
  unfold loadBaseRows
  generalize hacc : ([] : StateMap) = acc
  have hp : pathsConsistent acc := hacc ▸ pathsConsistent_nil
  have hn : (acc.map Prod.fst).Nodup := by rw [← hacc]; simp
  clear hacc
  induction rows generalizing acc with
  | nil => exact ⟨hp, hn⟩
  | cons r tl ih =>
    rw [List.foldl_cons]
    exact ih _ (pathsConsistent_dictSet hp rfl) (nodup_keys_dictSet _ _ hn)

theorem load_current_state_inv (dir : Dir) :
    pathsConsistent (load_current_state dir) ∧
      ((load_current_state dir).map Prod.fst).Nodup := by
  unfold load_current_state
  cases hfb : find_latest_base dir with
  | none => exact ⟨pathsConsistent_nil, by simp⟩
  | some b =>
    dsimp only
    obtain ⟨hp0, hn0⟩ := loadBaseRows_inv b.2
    generalize hst : loadBaseRows b.2 = st0 at hp0 hn0
    generalize (find_deltas_after_base dir (some b)) = files
    clear hst hfb
    induction files generalizing st0 with
    | nil => exact ⟨hp0, hn0⟩
    | cons f tl ih =>
      rw [List.foldl_cons]
      obtain ⟨hp1, hn1⟩ := foldDeltaRows_inv hp0 hn0 f.2
      exact ih _ hp1 hn1

/-- Every record in the map has a null `status` (true of any state
reconstructed from a base whose rows carry no status). -/
def statusesNone (st : StateMap) : Prop := ∀ e ∈ st, e.2.status = none

theorem statusesNone_applyDeltaRow {st : StateMap} (h : statusesNone st) (r : Record) :
    statusesNone (applyDeltaRow st r) := by
  unfold applyDeltaRow
  by_cases hrem : r.status = some "removed"
  · rw [if_pos hrem]
    cases hold : dictGet? st r.path with
    | none => exact h
    | some old =>
      intro e he
      rcases mem_dictSet he with rfl | he'
      · have hs : old.status = none := h _ (mem_of_dictGet? hold)
        simpa using hs
      · exact h e he'
  · rw [if_neg hrem]
    intro e he
    rcases mem_dictSet he with rfl | he'
    · rfl
    · exact h e he'

theorem statusesNone_loadBaseRows_aux :
    ∀ (rows : List Record) (acc : StateMap), (∀ r ∈ rows, r.status = none) →
      statusesNone acc →
      statusesNone (rows.foldl (fun st r => dictSet st r.path r) acc) := by
  intro rows
  induction rows with
  | nil => intro acc _ hacc; exact hacc
  | cons r tl ih =>
    intro acc h hacc
    rw [List.foldl_cons]
    refine ih _ (fun r' hr' => h r' (List.mem_cons_of_mem _ hr')) ?_
    intro e he
    rcases mem_dictSet he with rfl | he'
    · exact h r (List.mem_cons_self _ _)
    · exact hacc e he'

theorem statusesNone_loadBaseRows {rows : List Record}
    (h : ∀ r ∈ rows, r.status = none) : statusesNone (loadBaseRows rows) :=
  statusesNone_loadBaseRows_aux rows [] h (by intro e he; simp at he)

theorem find_latest_base_mem {dir : Dir} {b : String × List Record}
    (h : find_latest_base dir = some b) : b ∈ dir ∧ isBaseFile b.1 = true := by
  unfold find_latest_base at h
  have hc := getLast?_max_of_sorted (sortByName_sorted _) h
  have hmem := (sortByName_perm _).subset hc.1
  rw [List.mem_filter] at hmem
  exact ⟨hmem.1, hmem.2⟩

theorem statusesNone_load_current_state (dir : Dir)
    (hb : ∀ f ∈ dir, isBaseFile f.1 = true → ∀ r ∈ f.2, r.status = none) :
    statusesNone (load_current_state dir) := by
  unfold load_current_state
  cases hfb : find_latest_base dir with
  | none => intro e he; simp at he
  | some b =>
    dsimp only
    obtain ⟨hbm, hbb⟩ := find_latest_base_mem hfb
    have h0 : statusesNone (loadBaseRows b.2) :=
      statusesNone_loadBaseRows (hb b hbm hbb)
    generalize loadBaseRows b.2 = st0 at h0
    generalize (find_deltas_after_base dir (some b)) = files
    induction files generalizing st0 with
    | nil => exact h0
    | cons f tl ih =>
      rw [List.foldl_cons]
      refine ih _ ?_
      have : ∀ (rows : List Record) (st : StateMap), statusesNone st →
          statusesNone (rows.foldl applyDeltaRow st) := by
        intro rows
        induction rows with
        | nil => intro st h; exact h
        | cons r tl2 ih2 =>
          intro st h
          rw [List.foldl_cons]
          exact ih2 _ (statusesNone_applyDeltaRow h r)
      exact this f.2 st0 h0

/-- Re-inserting the values of a consistent, key-unique map rebuilds the
same map. -/
theorem loadBaseRows_rebuild :
    ∀ (st : StateMap) (acc : StateMap), pathsConsistent st →
      (st.map Prod.fst).Nodup → (∀ e ∈ st, e.1 ∉ acc.map Prod.fst) →
      (st.map Prod.snd).foldl (fun s r => dictSet s r.path r) acc = acc ++ st := by
  intro st
  induction st with
  | nil => intro acc _ _ _; simp
  | cons e tl ih =>
    intro acc hp hn hdisj
    rw [List.map_cons, List.foldl_cons]
    have hpath : e.2.path = e.1 := hp e (List.mem_cons_self _ _)
    have hnot : e.2.path ∉ acc.map Prod.fst := by
      rw [hpath]
      exact hdisj e (List.mem_cons_self _ _)
    rw [dictSet_append_of_not_mem _ hnot, hpath]
    have he2 : (e.1, e.2) = e := rfl
    rw [he2]
    rw [List.map_cons, List.nodup_cons] at hn
    have := ih (acc ++ [e]) (fun x hx => hp x (List.mem_cons_of_mem _ hx)) hn.2 ?_
    · rw [this, List.append_assoc]
      rfl
    · intro x hx
      rw [List.map_append, List.mem_append]
      push_neg
      refine ⟨fun hc => hdisj x (List.mem_cons_of_mem _ hx) hc, ?_⟩
      intro hc
      simp at hc
      exact hn.1 (hc ▸ List.mem_map_of_mem Prod.fst hx)

/-! ## Filename facts -/

theorem isBaseFile_canonical (ts : String) :
    isBaseFile ("base_" ++ ts ++ ".parquet") = true := by
  unfold isBaseFile pyStartsWith pyEndsWith
  rw [String.data_append, String.data_append]
  rw [Bool.and_eq_true]
  constructor
  · rw [List.isPrefixOf_iff_prefix, List.append_assoc]
    exact List.prefix_append _ _
  · rw [List.isSuffixOf_iff_suffix, List.append_assoc]
    exact (List.suffix_append _ _).trans (List.suffix_append _ _)

theorem not_isDeltaFile_of_base_start (ts : String) :
    isDeltaFile ("base_" ++ ts ++ ".parquet") = false := by
  unfold isDeltaFile pyStartsWith
  rw [String.data_append, String.data_append]
  have hb : ("base_" : String).data = 'b' :: "ase_".data := by decide
  have hd : ("delta_" : String).data = 'd' :: "elta_".data := by decide
  rw [hb, hd]
  simp [List.isPrefixOf]

theorem isParquetFile_of_isBaseFile {n : String} (h : isBaseFile n = true) :
    isParquetFile n = true := by
  unfold isBaseFile at h
  rw [Bool.and_eq_true] at h
  exact h.2

theorem isParquetFile_of_isDeltaFile {n : String} (h : isDeltaFile n = true) :
    isParquetFile n = true := by
  unfold isDeltaFile at h
  rw [Bool.and_eq_true] at h
  exact h.2

/-- Reconstruction over a directory whose globs see exactly one base and
no deltas reduces to loading that base's rows. -/
theorem load_of_single_base (dir : Dir) (x : String × List Record)
    (h1 : dir.filter (fun f => isBaseFile f.1) = [x])
    (h2 : dir.filter (fun f => isDeltaFile f.1) = []) :
    load_current_state dir = loadBaseRows x.2 := by
  unfold load_current_state find_latest_base find_deltas_after_base
  rw [h1, h2]
  have hsx : sortByName [x] = [x] := by
    unfold sortByName
    simp [List.insertionSort]
  have hse : sortByName [] = [] := by
    unfold sortByName
    simp [List.insertionSort]
  rw [hsx, hse]
  simp

/-! ## Consolidator (`ParquetCatalog.consolidate`, one experiment) -/

/-- `ParquetCatalog.consolidate` restricted to a single experiment
directory, deletion mode: if more than one `*.parquet` file exists and
the reconstructed state is non-empty, write a fresh base holding every
state record (with `status` forced to `None`) and delete the old parquet
files; non-parquet entries (e.g. stray temps) are untouched. -/
def consolidateExp (dir : Dir) (ts : String) : Dir :=
  if (dir.filter (fun f => isParquetFile f.1)).length ≤ 1 then dir
  else
    let state := load_current_state dir
    if state.isEmpty then dir
    else
      (dir.filter (fun f => !(isParquetFile f.1))) ++
        [("base_" ++ ts ++ ".parquet", state.map (fun pr => { pr.2 with status := none }))]

/-- C3: consolidation is state-preserving, and when it does rewrite, the
single new base holds exactly the pre-consolidation reconstructed record
set (with null statuses), including entries whose `on_disk` is false. -/
theorem consolidate_state_preserving (dir : Dir) (ts : String)
    (hb : ∀ f ∈ dir, isBaseFile f.1 = true → ∀ r ∈ f.2, r.status = none) :
    load_current_state (consolidateExp dir ts) = load_current_state dir ∧
    (1 < (dir.filter (fun f => isParquetFile f.1)).length →
      load_current_state dir ≠ [] →
      consolidateExp dir ts = (dir.filter (fun f => !(isParquetFile f.1))) ++
        [("base_" ++ ts ++ ".parquet", (load_current_state dir).map Prod.snd)]) := by
  have hstat : statusesNone (load_current_state dir) :=
    statusesNone_load_current_state dir hb
  have hmapid : (load_current_state dir).map (fun pr => { pr.2 with status := none }) =
      (load_current_state dir).map Prod.snd := by
    apply List.map_congr_left
    intro e he
    have h := hstat e he
    cases e with
    | mk k r =>
      cases r
      simp only at h
      simp [h]
  unfold consolidateExp
  by_cases hlen : (dir.filter (fun f => isParquetFile f.1)).length ≤ 1
  · rw [if_pos hlen]
    exact ⟨rfl, fun h _ => absurd hlen (by omega)⟩
  · rw [if_neg hlen]
    by_cases hemp : (load_current_state dir).isEmpty = true
    · rw [if_pos hemp]
      have hnil : load_current_state dir = [] := by
        cases h : load_current_state dir with
        | nil => rfl
        | cons a t => rw [h] at hemp; simp at hemp
      exact ⟨rfl, fun _ hne => absurd hnil hne⟩
    · rw [if_neg hemp]
      rw [hmapid]
      set d2 : Dir := (dir.filter (fun f => !(isParquetFile f.1))) ++
        [("base_" ++ ts ++ ".parquet", (load_current_state dir).map Prod.snd)] with hd2
    
      have hfb : d2.filter (fun f => isBaseFile f.1) =
          [("base_" ++ ts ++ ".parquet", (load_current_state dir).map Prod.snd)] := by
        rw [hd2, List.filter_append]
        have hnp : (dir.filter (fun f => !(isParquetFile f.1))).filter
            (fun f => isBaseFile f.1) = [] := by
          rw [List.filter_filter]
          apply List.filter_eq_nil_iff.mpr
          intro a _
          intro hcontra
          rw [Bool.and_eq_true] at hcontra
          have hpq := isParquetFile_of_isBaseFile hcontra.1
          rw [hpq] at hcontra
          simp at hcontra
        rw [hnp]
        simp [isBaseFile_canonical]
      have hfd : d2.filter (fun f => isDeltaFile f.1) = [] := by
        rw [hd2, List.filter_append]
        have hnp : (dir.filter (fun f => !(isParquetFile f.1))).filter
            (fun f => isDeltaFile f.1) = [] := by
          rw [List.filter_filter]
          apply List.filter_eq_nil_iff.mpr
          intro a _
          intro hcontra
          rw [Bool.and_eq_true] at hcontra
          have hpq := isParquetFile_of_isDeltaFile hcontra.1
          rw [hpq] at hcontra
          simp at hcontra
        rw [hnp]
        simp [not_isDeltaFile_of_base_start]
      have hload := load_of_single_base d2 _ hfb hfd
      rw [hload]
      obtain ⟨hpc, hnd⟩ := load_current_state_inv dir
      have hrebuild := loadBaseRows_rebuild (load_current_state dir) [] hpc hnd
        (by intro e _; simp)
      unfold loadBaseRows
      rw [hrebuild]
      exact ⟨by simp, fun _ _ => rfl⟩

/-- Witness for C3 on a concrete base-plus-delta directory. -/
theorem consolidate_state_preserving_witness :
    (let r0 : Record := { path := "/d/a", parent_path := "/d", filename := "a", size := some 1, mtime := some 10, owner := some "0", group_name := some "0", permissions := some 33188, checksum := none, experiment := some "e", run := none, indexed_at := "2024-01-01T000000.000001", on_disk := some true, status := none }
     let r1 : Record := { r0 with indexed_at := "2024-01-02T000000.000001", on_disk := none, status := some "removed" }
     let dir : Dir := [("base_2024-01-01T000000.000001.parquet", [r0]),
       ("delta_2024-01-02T000000.000001.parquet", [r1])]
     (∀ f ∈ dir, isBaseFile f.1 = true → ∀ r ∈ f.2, r.status = none) ∧
     load_current_state (consolidateExp dir "2024-01-03T000000.000001") =
       load_current_state dir) := by
  refine ⟨by decide, ?_⟩
  exact (consolidate_state_preserving _ _ (by decide)).1

/-! ## Decimal rendering (`f"{x:.1f}"`) -/

/-- Little-endian decimal digits of `n` (fuel-indexed). -/
def toDigitsAux : ℕ → ℕ → List ℕ
  | 0, _ => []
  | fuel + 1, n => if n = 0 then [] else n % 10 :: toDigitsAux fuel (n / 10)

/-- Little-endian decimal digits of `n`. -/
def toDigits (n : ℕ) : List ℕ := toDigitsAux n n

/-- Inverse of `toDigits`. -/
def unDigits : List ℕ → ℕ
  | [] => 0
  | d :: ds => d + 10 * unDigits ds

theorem unDigits_toDigitsAux : ∀ (fuel n : ℕ), n ≤ fuel →
    unDigits (toDigitsAux fuel n) = n := by
  intro fuel
  induction fuel with
  | zero =>
    intro n hn
    interval_cases n
    rfl
  | succ f ih =>
    intro n hn
    unfold toDigitsAux
    by_cases h0 : n = 0
    · simp [h0, unDigits]
    · rw [if_neg h0]
      have hdiv : n / 10 ≤ f := by
        have : n / 10 < n := Nat.div_lt_self (Nat.pos_of_ne_zero h0) (by omega)
        omega
      unfold unDigits
      rw [ih _ hdiv]
      omega

theorem toDigits_inj {m n : ℕ} (h : toDigits m = toDigits n) : m = n := by
  have hm := unDigits_toDigitsAux m m le_rfl
  have hn := unDigits_toDigitsAux n n le_rfl
  unfold toDigits at h
  rw [h] at hm
  rw [hn] at hm
  exact hm.symm

theorem toDigitsAux_lt : ∀ (fuel n : ℕ), ∀ d ∈ toDigitsAux fuel n, d < 10 := by
  intro fuel
  induction fuel with
  | zero => intro n d hd; simp [toDigitsAux] at hd
  | succ f ih =>
    intro n d hd
    unfold toDigitsAux at hd
    by_cases h0 : n = 0
    · rw [if_pos h0] at hd; simp at hd
    · rw [if_neg h0] at hd
      rcases List.mem_cons.mp hd with rfl | hd'
      · exact Nat.mod_lt _ (by omega)
      · exact ih _ d hd'

/-- Decimal character rendering of a natural number. -/
def digitChars (n : ℕ) : List Char :=
  if n = 0 then ['0'] else ((toDigits n).reverse.map Nat.digitChar)

theorem digitChar_inj_lt : ∀ a < 10, ∀ b < 10, Nat.digitChar a = Nat.digitChar b → a = b := by
  decide

theorem digitChar_ne_dot : ∀ a < 10, Nat.digitChar a ≠ '.' := by
  decide

theorem map_digitChar_inj : ∀ {l1 l2 : List ℕ}, (∀ d ∈ l1, d < 10) →
    (∀ d ∈ l2, d < 10) → l1.map Nat.digitChar = l2.map Nat.digitChar → l1 = l2 := by
  intro l1
  induction l1 with
  | nil =>
    intro l2 _ _ h
    cases l2 with
    | nil => rfl
    | cons b t => simp at h
  | cons a t1 ih =>
    intro l2 h1 h2 h
    cases l2 with
    | nil => simp at h
    | cons b t2 =>
      simp only [List.map_cons, List.cons.injEq] at h
      have ha := h1 a (List.mem_cons_self _ _)
      have hb := h2 b (List.mem_cons_self _ _)
      rw [digitChar_inj_lt a ha b hb h.1]
      rw [ih (fun d hd => h1 d (List.mem_cons_of_mem _ hd))
        (fun d hd => h2 d (List.mem_cons_of_mem _ hd)) h.2]

theorem digitChars_inj {m n : ℕ} (h : digitChars m = digitChars n) : m = n := by
  unfold digitChars at h
  by_cases hm : m = 0 <;> by_cases hn : n = 0
  · omega
  · rw [if_pos hm, if_neg hn] at h
    exfalso
    cases hrev : (toDigits n).reverse with
    | nil =>
      have : toDigits n = [] := by
        have := congrArg List.reverse hrev
        simpa using this
      have hun := unDigits_toDigitsAux n n le_rfl
      unfold toDigits at this
      rw [this] at hun
      exact hn (by simpa [unDigits] using hun.symm)
    | cons d t =>
      rw [hrev] at h
      simp only [List.map_cons] at h
      have hlen := congrArg List.length h
      simp at hlen
      have hd10 : d < 10 := by
        have : d ∈ toDigits n := by
          have : d ∈ (toDigits n).reverse := by rw [hrev]; exact List.mem_cons_self _ _
          exact List.mem_reverse.mp this
        exact toDigitsAux_lt n n d this
      have hchar : Nat.digitChar d = '0' := by
        rw [hlen] at h
        simpa using (congrArg (fun l => l.headI) h).symm
      have hd0 : d = 0 := digitChar_inj_lt d hd10 0 (by omega) (by rw [hchar]; rfl)
      have hun := unDigits_toDigitsAux n n le_rfl
      have hrev2 : toDigits n = [d] := by
        have := congrArg List.reverse hrev
        simpa [hlen] using this
      unfold toDigits at hrev2
      rw [hrev2] at hun
      simp [unDigits, hd0] at hun
      exact hn hun.symm
  · rw [if_neg hm, if_pos hn] at h
    exfalso
    cases hrev : (toDigits m).reverse with
    | nil =>
      have : toDigits m = [] := by
        have := congrArg List.reverse hrev
        simpa using this
      have hun := unDigits_toDigitsAux m m le_rfl
      unfold toDigits at this
      rw [this] at hun
      exact hm (by simpa [unDigits] using hun.symm)
    | cons d t =>
      rw [hrev] at h
      simp only [List.map_cons] at h
      have hlen := congrArg List.length h
      simp at hlen
      have hd10 : d < 10 := by
        have : d ∈ toDigits m := by
          have : d ∈ (toDigits m).reverse := by rw [hrev]; exact List.mem_cons_self _ _
          exact List.mem_reverse.mp this
        exact toDigitsAux_lt m m d this
      have hchar : Nat.digitChar d = '0' := by
        rw [hlen] at h
        simpa using congrArg (fun l => l.headI) h
      have hd0 : d = 0 := digitChar_inj_lt d hd10 0 (by omega) (by rw [hchar]; rfl)
      have hun := unDigits_toDigitsAux m m le_rfl
      have hrev2 : toDigits m = [d] := by
        have := congrArg List.reverse hrev
        simpa [hlen] using this
      unfold toDigits at hrev2
      rw [hrev2] at hun
      simp [unDigits, hd0] at hun
      exact hm hun.symm
  · rw [if_neg hm, if_neg hn] at h
    have hrev : (toDigits m).reverse = (toDigits n).reverse := by
      apply map_digitChar_inj _ _ h
      · intro d hd
        exact toDigitsAux_lt m m d (List.mem_reverse.mp hd)
      · intro d hd
        exact toDigitsAux_lt n n d (List.mem_reverse.mp hd)
    exact toDigits_inj (List.reverse_injective hrev)

theorem digitChars_no_dot (n : ℕ) : '.' ∉ digitChars n := by
  unfold digitChars
  by_cases h : n = 0
  · rw [if_pos h]
    decide
  · rw [if_neg h]
    intro hmem
    obtain ⟨d, hd, hdc⟩ := List.mem_map.mp hmem
    exact digitChar_ne_dot d (toDigitsAux_lt n n d (List.mem_reverse.mp hd)) hdc

/-- Round-half-even of `10 * q` for `0 ≤ q`, the rounding used by
`f"{q:.1f}"` (the embedded floats are exact binary rationals). -/
def rnd10 (q : ℚ) : ℕ :=
  if 1 / 2 < 10 * q - ((⌊10 * q⌋).toNat : ℚ) then (⌊10 * q⌋).toNat + 1
  else if 10 * q - ((⌊10 * q⌋).toNat : ℚ) < 1 / 2 then (⌊10 * q⌋).toNat
  else if (⌊10 * q⌋).toNat % 2 = 0 then (⌊10 * q⌋).toNat
  else (⌊10 * q⌋).toNat + 1

theorem rnd10_cases (q : ℚ) :
    rnd10 q = (⌊10 * q⌋).toNat ∨ rnd10 q = (⌊10 * q⌋).toNat + 1 := by
  unfold rnd10
  split_ifs <;> simp

theorem rnd10_mono {a b : ℚ} (hb : 0 ≤ b) (h : b + 1 ≤ a) : rnd10 b < rnd10 a := by
  have hfb : (0 : ℤ) ≤ ⌊10 * b⌋ := Int.floor_nonneg.mpr (by positivity)
  have hfab : ⌊10 * b⌋ + 10 ≤ ⌊10 * a⌋ := by
    have h10 : (10 : ℚ) * b + (10 : ℤ) ≤ 10 * a := by push_cast; linarith
    calc ⌊10 * b⌋ + 10 = ⌊10 * b + ((10 : ℤ) : ℚ)⌋ := (Int.floor_add_int _ _).symm
      _ ≤ ⌊10 * a⌋ := Int.floor_le_floor h10
  rcases rnd10_cases a with ha | ha <;> rcases rnd10_cases b with hb2 | hb2 <;>
    rw [ha, hb2] <;> omega

/-- The characters of `f"{q:.1f}"` for `0 ≤ q`. -/
def fmtNN (q : ℚ) : List Char :=
  digitChars (rnd10 q / 10) ++ ('.' :: [Nat.digitChar (rnd10 q % 10)])

/-- The characters of `f"{q:.1f}"`. -/
def fmtChars (q : ℚ) : List Char :=
  if q < 0 then '-' :: fmtNN (-q) else fmtNN q

theorem append_dot_split :
    ∀ {l1 l2 t1 t2 : List Char}, '.' ∉ l1 → '.' ∉ l2 →
      l1 ++ '.' :: t1 = l2 ++ '.' :: t2 → l1 = l2 ∧ t1 = t2 := by
  intro l1
  induction l1 with
  | nil =>
    intro l2 t1 t2 _ h2 he
    cases l2 with
    | nil => simpa using he
    | cons c l2' =>
      simp only [List.nil_append, List.cons_append, List.cons.injEq] at he
      exact absurd (List.mem_cons.mpr (Or.inl he.1)) h2
  | cons c l1' ih =>
    intro l2 t1 t2 h1 h2 he
    cases l2 with
    | nil =>
      simp only [List.cons_append, List.nil_append, List.cons.injEq] at he
      exact absurd (List.mem_cons.mpr (Or.inl he.1.symm)) h1
    | cons c2 l2' =>
      simp only [List.cons_append, List.cons.injEq] at he
      have hr := ih (fun hm => h1 (List.mem_cons_of_mem _ hm))
        (fun hm => h2 (List.mem_cons_of_mem _ hm)) he.2
      exact ⟨by rw [he.1, hr.1], hr.2⟩

theorem fmtNN_ne {a b : ℚ} (h : rnd10 a ≠ rnd10 b) : fmtNN a ≠ fmtNN b := by
  intro he
  unfold fmtNN at he
  obtain ⟨h1, h2⟩ := append_dot_split (digitChars_no_dot _) (digitChars_no_dot _) he
  have hdiv : rnd10 a / 10 = rnd10 b / 10 := digitChars_inj h1
  have hmod : rnd10 a % 10 = rnd10 b % 10 := by
    have hdc : Nat.digitChar (rnd10 a % 10) = Nat.digitChar (rnd10 b % 10) := by
      simpa using h2
    exact digitChar_inj_lt _ (Nat.mod_lt _ (by omega)) _ (Nat.mod_lt _ (by omega)) hdc
  omega

/-! ## `catalog.FileEntry.size_human` (C9) -/

/-- `catalog.FileEntry`, the v0.1 row dataclass.  Its `size` field starts
as the catalogued integer but is reassigned float quotients by
`size_human`, so it is modelled as a rational. -/
structure FileEntry where
  path : String
  parent_path : String
  filename : String
  size : Option ℚ
  mtime : Option ℤ
  owner : Option String
  group_name : Option String
  permissions : Option ℤ
  checksum : Option String
  archive_uri : Option String
  experiment : Option String
  run : Option ℤ
  purge_date : Option String
deriving DecidableEq

/-- The unit list walked by `size_human`. -/
def sizeHumanUnits : List String := ["B", "KB", "MB", "GB", "TB"]

/-- The `for unit in [...]` loop of `FileEntry.size_human`, returning the
rendered string and the final value of the mutated `self.size`. -/
def size_human_loop : ℚ → List String → String × ℚ
  | s, [] => (String.mk (fmtChars s ++ ' ' :: "PB".data), s)
  | s, u :: rest =>
      if |s| < 1024 then (String.mk (fmtChars s ++ ' ' :: u.data), s)
      else size_human_loop (s / 1024) rest

/-- `FileEntry.size_human`: renders the size and, through the in-place
`self.size /= 1024` updates, returns the entry as mutated. -/
def FileEntry.size_human (e : FileEntry) : String × FileEntry :=
  match e.size with
  | none => ("N/A", e)
  | some s =>
      let r := size_human_loop s sizeHumanUnits
      (r.1, { e with size := some r.2 })

theorem size_human_loop_step {x : ℚ} (u : String) (rest : List String)
    (hx : 0 < x) (h14 : 1024 ≤ x) :
    size_human_loop x (u :: rest) = size_human_loop (x / 1024) rest := by
  conv_lhs => rw [size_human_loop.eq_def]
  dsimp only
  rw [if_neg (by rw [abs_of_pos hx]; exact not_lt.mpr h14)]

theorem size_human_loop_done {x : ℚ} (u : String) (rest : List String)
    (hx : 0 < x) (hlt : x < 1024) :
    size_human_loop x (u :: rest) = (String.mk (fmtChars x ++ ' ' :: u.data), x) := by
  unfold size_human_loop
  rw [if_pos (by rw [abs_of_pos hx]; exact hlt)]

theorem size_human_loop_small {x : ℚ} (hx : 0 < x) (hlt : x < 1024) :
    size_human_loop x sizeHumanUnits = (String.mk (fmtChars x ++ ' ' :: "B".data), x) := by
  unfold sizeHumanUnits
  exact size_human_loop_done "B" _ hx hlt

/-- Where the `size_human` loop lands when the starting value is at least
1024: a strictly smaller positive value and a two-letter unit, `PB`
whenever the final value is still at least 1024. -/
theorem size_human_loop_of_ge (s : ℚ) (h0 : 0 < s) (h1024 : 1024 ≤ s) :
    ∃ (v : ℚ) (u : String), v ≤ s / 1024 ∧ 0 < v ∧
      size_human_loop s sizeHumanUnits = (String.mk (fmtChars v ++ ' ' :: u.data), v) ∧
      u ∈ (["KB", "MB", "GB", "TB", "PB"] : List String) ∧
      (1024 ≤ v → u = "PB") := by
  unfold sizeHumanUnits
  rw [size_human_loop_step "B" _ h0 h1024]
  have hp1 : 0 < s / 1024 := by positivity
  have hle1 : s / 1024 ≤ s / 1024 := le_rfl
  by_cases hc1 : s / 1024 < 1024
  · rw [size_human_loop_done "KB" _ hp1 hc1]
    exact ⟨s / 1024, "KB", hle1, hp1, rfl, by decide,
      fun h => absurd h (not_le.mpr hc1)⟩
  · push_neg at hc1
    rw [size_human_loop_step "KB" _ hp1 hc1]
    have hp2 : 0 < s / 1024 / 1024 := by positivity
    have hle2 : s / 1024 / 1024 ≤ s / 1024 := div_le_self hp1.le (by norm_num)
    by_cases hc2 : s / 1024 / 1024 < 1024
    · rw [size_human_loop_done "MB" _ hp2 hc2]
      exact ⟨_, "MB", hle2, hp2, rfl, by decide, fun h => absurd h (not_le.mpr hc2)⟩
    · push_neg at hc2
      rw [size_human_loop_step "MB" _ hp2 hc2]
      have hp3 : 0 < s / 1024 / 1024 / 1024 := by positivity
      have hle3 : s / 1024 / 1024 / 1024 ≤ s / 1024 :=
        le_trans (div_le_self hp2.le (by norm_num)) hle2
      by_cases hc3 : s / 1024 / 1024 / 1024 < 1024
      · rw [size_human_loop_done "GB" _ hp3 hc3]
        exact ⟨_, "GB", hle3, hp3, rfl, by decide, fun h => absurd h (not_le.mpr hc3)⟩
      · push_neg at hc3
        rw [size_human_loop_step "GB" _ hp3 hc3]
        have hp4 : 0 < s / 1024 / 1024 / 1024 / 1024 := by positivity
        have hle4 : s / 1024 / 1024 / 1024 / 1024 ≤ s / 1024 :=
          le_trans (div_le_self hp3.le (by norm_num)) hle3
        by_cases hc4 : s / 1024 / 1024 / 1024 / 1024 < 1024
        · rw [size_human_loop_done "TB" _ hp4 hc4]
          exact ⟨_, "TB", hle4, hp4, rfl, by decide, fun h => absurd h (not_le.mpr hc4)⟩
        · push_neg at hc4
          rw [size_human_loop_step "TB" _ hp4 hc4]
          have hp5 : 0 < s / 1024 / 1024 / 1024 / 1024 / 1024 := by positivity
          have hle5 : s / 1024 / 1024 / 1024 / 1024 / 1024 ≤ s / 1024 :=
            le_trans (div_le_self hp4.le (by norm_num)) hle4
          exact ⟨_, "PB", hle5, hp5, rfl, by decide, fun _ => rfl⟩

theorem append_last3 {l1 l2 : List Char} {a b c d e f : Char}
    (h : l1 ++ [a, b, c] = l2 ++ [d, e, f]) : a = d ∧ b = e ∧ c = f := by
  have hr := congrArg List.reverse h
  simp only [List.reverse_append, List.reverse_cons, List.reverse_nil, List.nil_append,
    List.cons_append, List.append_assoc] at hr
  simp at hr
  exact ⟨hr.2.2.1, hr.2.1, hr.1⟩

/-- C9: `FileEntry.size_human` is not a pure accessor.  For an entry
whose size is at least 1024, one evaluation divides the stored `size` in
place (so it no longer equals the catalogued size), a second evaluation
renders a different string, and every other field is untouched. -/
theorem size_human_not_pure (e : FileEntry) (q : ℚ)
    (hq : e.size = some q) (h1024 : 1024 ≤ q) :
    (e.size_human).2.size ≠ some q ∧
    ((e.size_human).2.size_human).1 ≠ (e.size_human).1 ∧
    ((e.size_human).2.path = e.path ∧
     (e.size_human).2.parent_path = e.parent_path ∧
     (e.size_human).2.filename = e.filename ∧
     (e.size_human).2.mtime = e.mtime ∧
     (e.size_human).2.owner = e.owner ∧
     (e.size_human).2.group_name = e.group_name ∧
     (e.size_human).2.permissions = e.permissions ∧
     (e.size_human).2.checksum = e.checksum ∧
     (e.size_human).2.archive_uri = e.archive_uri ∧
     (e.size_human).2.experiment = e.experiment ∧
     (e.size_human).2.run = e.run ∧
     (e.size_human).2.purge_date = e.purge_date) := by
  have h0 : 0 < q := lt_of_lt_of_le (by norm_num) h1024
  obtain ⟨v, u, hle, hv0, hloop, humem, hPB⟩ := size_human_loop_of_ge q h0 h1024
  have hsh : e.size_human =
      (String.mk (fmtChars v ++ ' ' :: u.data), { e with size := some v }) := by
    unfold FileEntry.size_human
    rw [hq]
    dsimp only
    rw [hloop]
  have hvltq : v < q := lt_of_le_of_lt hle (div_lt_self h0 (by norm_num))
  rw [hsh]
  refine ⟨?_, ?_, rfl, rfl, rfl, rfl, rfl, rfl, rfl, rfl, rfl, rfl, rfl, rfl⟩
  · intro hcontra
    have hvq : v = q := Option.some.inj hcontra
    exact absurd hvq (ne_of_lt hvltq)
  · dsimp only
    by_cases hvbig : 1024 ≤ v
    · rw [hPB hvbig]
      obtain ⟨v2, u2, hle2, hv20, hloop2, hu2mem, _⟩ := size_human_loop_of_ge v hv0 hvbig
      have hsh2 : ({ e with size := some v } : FileEntry).size_human =
          (String.mk (fmtChars v2 ++ ' ' :: u2.data),
            { e with size := some v2 }) := by
        unfold FileEntry.size_human
        dsimp only
        rw [hloop2]
      rw [hsh2]
      dsimp only
      intro hcontra
      have hdata : fmtChars v2 ++ ' ' :: u2.data = fmtChars v ++ ' ' :: "PB".data :=
        congrArg String.data hcontra
      have hrne : rnd10 v2 ≠ rnd10 v :=
        ne_of_lt (rnd10_mono hv20.le (by
          have hdle : v / 1024 ≤ v - 1 := by
            rw [div_le_iff₀ (by norm_num : (0 : ℚ) < 1024)]
            nlinarith
          linarith))
      have hfne : fmtChars v2 ≠ fmtChars v := by
        unfold fmtChars
        rw [if_neg (not_lt.mpr hv20.le), if_neg (not_lt.mpr hv0.le)]
        exact fmtNN_ne hrne
      have hPBdata : (' ' :: ("PB" : String).data) = [' ', 'P', 'B'] := by decide
      rw [hPBdata] at hdata
      simp at hu2mem
      rcases hu2mem with rfl | rfl | rfl | rfl | rfl
      · rw [show (' ' :: ("KB" : String).data) = [' ', 'K', 'B'] from by decide] at hdata
        exact absurd (append_last3 hdata).2.1 (by decide)
      · rw [show (' ' :: ("MB" : String).data) = [' ', 'M', 'B'] from by decide] at hdata
        exact absurd (append_last3 hdata).2.1 (by decide)
      · rw [show (' ' :: ("GB" : String).data) = [' ', 'G', 'B'] from by decide] at hdata
        exact absurd (append_last3 hdata).2.1 (by decide)
      · rw [show (' ' :: ("TB" : String).data) = [' ', 'T', 'B'] from by decide] at hdata
        exact absurd (append_last3 hdata).2.1 (by decide)
      · rw [hPBdata] at hdata
        exact hfne (List.append_cancel_right hdata)
    · push_neg at hvbig
      have hloop2 := size_human_loop_small hv0 hvbig
      have hsh2 : ({ e with size := some v } : FileEntry).size_human =
          (String.mk (fmtChars v ++ ' ' :: "B".data), { e with size := some v }) := by
        unfold FileEntry.size_human
        dsimp only
        rw [hloop2]
      rw [hsh2]
      dsimp only
      intro hcontra
      have hdata : fmtChars v ++ ' ' :: ("B" : String).data =
          fmtChars v ++ ' ' :: u.data := congrArg String.data hcontra
      have hu : (' ' :: ("B" : String).data) = ' ' :: u.data :=
        List.append_cancel_left hdata
      simp at humem
      rcases humem with rfl | rfl | rfl | rfl | rfl <;> exact absurd hu (by decide)

/-- Witness for C9 at a concrete entry of size 2048. -/
theorem size_human_not_pure_witness :
    (let e : FileEntry := { path := "/d/a", parent_path := "/d", filename := "a", size := some 2048, mtime := some 10, owner := some "0", group_name := some "0", permissions := some 33188, checksum := none, archive_uri := none, experiment := some "e", run := none, purge_date := none }
     (e.size = some 2048 ∧ (1024 : ℚ) ≤ 2048) ∧
     (e.size_human).2.size ≠ some 2048) := by
  refine ⟨⟨rfl, by norm_num⟩, ?_⟩
  exact (size_human_not_pure _ 2048 rfl (by norm_num)).1

/-! ## Snapshot batching (`ParquetCatalog.snapshot`, workers = 1) -/

/-- The `file_args[i : i + batch_size]` slices taken by the snapshot
loop (fuel-indexed; the fuel is the list length). -/
def pyChunksAux {α : Type} : ℕ → ℕ → List α → List (List α)
  | 0, _, _ => []
  | _ + 1, _, [] => []
  | fuel + 1, b, x :: xs => (x :: xs).take b :: pyChunksAux fuel b ((x :: xs).drop b)

/-- The batches `range(0, len(file_args), batch_size)` walks through. -/
def pyChunks {α : Type} (b : ℕ) (l : List α) : List (List α) :=
  pyChunksAux l.length b l

/-- `ParquetCatalog._process_batch` with `workers = 1`: a sequential map
over the batch, dropping skipped (`None`) files. -/
def process_batch {α β : Type} (pf : α → Option β) (batch : List α) : List β :=
  batch.filterMap pf

/-- The `current_files` accumulation of `ParquetCatalog.snapshot`:
process the argument list batch by batch, keying every produced record
by path into one dict. -/
def buildCurrentFiles {α : Type} (pf : α → Option Record) (args : List α)
    (batch_size : ℕ) : StateMap :=
  (pyChunks batch_size args).foldl
    (fun cur batch =>
      (process_batch pf batch).foldl (fun cur rec => dictSet cur rec.path rec) cur) []

/-- `ParquetCatalog._write_base` (pure part): rows with `on_disk=True`
and null status; no file and `(0,0,0)` on empty input. -/
def write_base (ts : String) (files : StateMap) :
    (ℕ × ℕ × ℕ) × Option (String × List Record) :=
  let records := files.map (fun pr => { pr.2 with on_disk := some true, status := none })
  if records = [] then ((0, 0, 0), none)
  else ((records.length, 0, 0), some ("base_" ++ ts ++ ".parquet", records))

/-- The pure tail of `ParquetCatalog.snapshot`: build the current map in
batches, then write a base on first run and a delta otherwise. -/
def snapshotCore {α : Type} (pf : α → Option Record) (args : List α)
    (batch_size : ℕ) (previous : StateMap) (ts : String) :
    (ℕ × ℕ × ℕ) × Option (String × List Record) :=
  let current := buildCurrentFiles pf args batch_size
  if previous = [] then write_base ts current else write_delta ts current previous

theorem pyChunksAux_flatten {α : Type} :
    ∀ (fuel b : ℕ) (l : List α), 1 ≤ b → l.length ≤ fuel →
      (pyChunksAux fuel b l).flatten = l := by
  intro fuel
  induction fuel with
  | zero =>
    intro b l _ hl
    have : l = [] := List.eq_nil_of_length_eq_zero (by omega)
    rw [this]
    rfl
  | succ f ih =>
    intro b l hb hl
    cases l with
    | nil => rfl
    | cons x xs =>
      simp only [pyChunksAux]
      rw [List.flatten_cons]
      have hlen : ((x :: xs).drop b).length ≤ f := by
        rw [List.length_drop]
        simp only [List.length_cons] at hl
        simp only [List.length_cons]
        omega
      rw [ih b _ hb hlen]
      exact List.take_append_drop b (x :: xs)

theorem foldl_batches_eq_foldl_flatten {α : Type} (pf : α → Option Record) :
    ∀ (L : List (List α)) (init : StateMap),
      L.foldl (fun cur batch =>
          (process_batch pf batch).foldl (fun cur rec => dictSet cur rec.path rec) cur) init =
        (L.flatten.filterMap pf).foldl (fun cur rec => dictSet cur rec.path rec) init := by
  intro L
  induction L with
  | nil => intro init; rfl
  | cons hd tl ih =>
    intro init
    rw [List.foldl_cons, ih, List.flatten_cons, List.filterMap_append, List.foldl_append]
    rfl

theorem buildCurrentFiles_eq {α : Type} (pf : α → Option Record) (args : List α)
    (b : ℕ) (hb : 1 ≤ b) :
    buildCurrentFiles pf args b =
      (args.filterMap pf).foldl (fun cur rec => dictSet cur rec.path rec) [] := by
  unfold buildCurrentFiles
  rw [foldl_batches_eq_foldl_flatten]
  unfold pyChunks
  rw [pyChunksAux_flatten args.length b args hb le_rfl]

/-- C10: with `workers = 1`, the snapshot result (counts and the file
written, rows included) does not depend on where the batch boundaries
fall: every `batch_size ≥ 1` behaves like `batch_size = 1`. -/
theorem snapshot_batch_size_irrelevant {α : Type} (pf : α → Option Record)
    (args : List α) (previous : StateMap) (ts : String) (b : ℕ) (hb : 1 ≤ b) :
    snapshotCore pf args b previous ts = snapshotCore pf args 1 previous ts := by
  unfold snapshotCore
  rw [buildCurrentFiles_eq pf args b hb, buildCurrentFiles_eq pf args 1 le_rfl]

/-- Witness for C10 at batch size 3 on a two-element argument list. -/
theorem snapshot_batch_size_irrelevant_witness :
    (let rec0 : Record := { path := "/d/a", parent_path := "/d", filename := "a", size := some 1, mtime := some 10, owner := some "0", group_name := some "0", permissions := some 33188, checksum := none, experiment := some "e", run := none, indexed_at := "t1", on_disk := none, status := none }
     let pf : ℕ → Option Record := fun n => if n = 0 then some rec0 else none
     (1 : ℕ) ≤ 3 ∧
     snapshotCore pf [0, 1] 3 [] "t1" = snapshotCore pf [0, 1] 1 [] "t1") := by
  exact ⟨by decide, snapshot_batch_size_irrelevant _ _ _ _ 3 (by decide)⟩

/-! ## File scanner (`_process_file`) -/

/-- The `lstat` fields `_process_file` reads. -/
structure StatInfo where
  st_size : ℤ
  st_mtime : ℚ
  st_uid : ℤ
  st_gid : ℤ
  st_mode : ℤ
deriving DecidableEq

/-- The filesystem behaviour at one path as `_process_file` observes it:
each call either returns or raises `OSError` (`Except Unit`).
`isFileRes` models `pathlib.Path.is_file()`, which follows symlinks;
`lstatRes` models the non-dereferencing `Path.lstat()`. -/
structure FSView where
  lstatRes : Except Unit StatInfo
  isFileRes : Except Unit Bool
  readRes : Except Unit (List ℕ)

/-- `pathlib.Path(p).name` on plain absolute paths. -/
def pathName (p : String) : String :=
  ((p.splitOn "/").getLast?).getD ""

/-- `str(pathlib.Path(p).parent)` on plain absolute paths. -/
def parentPath (p : String) : String :=
  String.intercalate "/" ((p.splitOn "/").dropLast)

/-- `re.search(r"run(\d+)", path)`: the digits after the first `run`
token followed by at least one digit. -/
def findRunAux : List Char → Option ℕ
  | [] => none
  | 'r' :: rest =>
      match rest with
      | 'u' :: 'n' :: more =>
          let ds := more.takeWhile Char.isDigit
          if ds = [] then findRunAux rest else some (natOfDigits ds)
      | _ => findRunAux rest
  | _ :: rest => findRunAux rest

/-- `str(n)` for the uid/gid fields. -/
def intRepr (n : ℤ) : String :=
  if n < 0 then String.mk ('-' :: digitChars (-n).toNat) else String.mk (digitChars n.toNat)

/-- `_process_file`: one file's metadata record, or `none` for the
skipped marker when any `OSError` occurs.  `hash` consumes the sequence
of `f.read(8192)` chunks, mirroring the incremental `sha256.update`
loop. -/
def process_file (hash : List (List ℕ) → String) (fs : FSView) (fpath : String)
    (compute_checksum : Bool) (experiment : Option String) (indexed_at : String) :
    Option Record :=
  match fs.lstatRes with
  | .error _ => none
  | .ok stat =>
      let cs : Except Unit (Option String) :=
        if compute_checksum then
          match fs.isFileRes with
          | .error e => .error e
          | .ok true =>
              match fs.readRes with
              | .error e => .error e
              | .ok content => .ok (some (hash (pyChunks 8192 content)))
          | .ok false => .ok none
        else .ok none
      match cs with
      | .error _ => none
      | .ok checksum =>
          some { path := fpath, parent_path := parentPath fpath,
                 filename := pathName fpath, size := some stat.st_size,
                 mtime := some (pyTrunc stat.st_mtime),
                 owner := some (intRepr stat.st_uid),
                 group_name := some (intRepr stat.st_gid),
                 permissions := some stat.st_mode, checksum := checksum,
                 experiment := experiment,
                 run := (findRunAux fpath.data).map (fun n => (n : ℤ)),
                 indexed_at := indexed_at, on_disk := none, status := none }

theorem pyChunksAux_nil {α : Type} : ∀ (fuel b : ℕ), pyChunksAux fuel b ([] : List α) = [] := by
  intro fuel b
  cases fuel <;> rfl

theorem pyChunksAux_mem_length {α : Type} :
    ∀ (fuel b : ℕ) (l : List α), 1 ≤ b →
      ∀ c ∈ pyChunksAux fuel b l, 0 < c.length ∧ c.length ≤ b := by
  intro fuel
  induction fuel with
  | zero => intro b l _ c hc; simp [pyChunksAux] at hc
  | succ f ih =>
    intro b l hb c hc
    cases l with
    | nil => simp [pyChunksAux] at hc
    | cons x xs =>
      simp only [pyChunksAux] at hc
      rcases List.mem_cons.mp hc with rfl | hc'
      · rw [List.length_take]
        simp only [List.length_cons]
        omega
      · exact ih b _ hb c hc'

theorem pyChunksAux_dropLast_length {α : Type} :
    ∀ (fuel b : ℕ) (l : List α), 1 ≤ b → l.length ≤ fuel →
      ∀ c ∈ (pyChunksAux fuel b l).dropLast, c.length = b := by
  intro fuel
  induction fuel with
  | zero => intro b l _ _ c hc; simp [pyChunksAux] at hc
  | succ f ih =>
    intro b l hb hl c hc
    cases l with
    | nil => simp [pyChunksAux] at hc
    | cons x xs =>
      simp only [pyChunksAux] at hc
      cases hrest : pyChunksAux f b ((x :: xs).drop b) with
      | nil =>
        rw [hrest] at hc
        simp at hc
      | cons r rs =>
        rw [hrest] at hc
        rw [List.dropLast_cons₂] at hc
        rcases List.mem_cons.mp hc with rfl | hc'
        · rw [List.length_take]
          have hble : b ≤ (x :: xs).length := by
            by_contra hgt
            push_neg at hgt
            have hdrop : (x :: xs).drop b = [] := by
              apply List.drop_eq_nil_of_le
              omega
            rw [hdrop, pyChunksAux_nil] at hrest
            exact List.noConfusion hrest
          omega
        · refine ih b _ hb ?_ c (by rw [hrest]; exact hc')
          rw [List.length_drop]
          simp only [List.length_cons] at hl
          simp only [List.length_cons]
          omega

/-- C6 counterexample: the checksum gate is `fpath.is_file()`, which
follows symlinks.  At a path whose non-dereferencing `lstat` mode is
`S_IFLNK` (`0o120777` = 41471; file-type nibble `mode / 4096 = 0o12`)
but which dereferences to a regular file, the scanner does compute a
checksum — the claim says it never does for a symlink. -/
theorem process_file_hashes_symlink :
    ((process_file (fun _ => "h")
        { lstatRes := Except.ok { st_size := 0, st_mtime := 0, st_uid := 0, st_gid := 0, st_mode := 41471 }, isFileRes := Except.ok true, readRes := Except.ok [] }
        "/d/link" true none "t1").map Record.checksum) = some (some "h") ∧
    (41471 : ℤ) / 4096 = 10 := by
  exact ⟨rfl, by decide⟩

/-- C6 (amended): `_process_file` computes a checksum exactly when it is
requested and the path *dereferences* to a regular file (`is_file()`
follows symlinks, so a symlink to a regular file is hashed), hashing
reads the file in 8192-byte chunks (every chunk but the last is exactly
8 KiB), and every OS error — in `lstat`, in `is_file`, or while reading —
yields the skipped marker instead of failing. -/
theorem process_file_contract (hash : List (List ℕ) → String) (fs : FSView)
    (fpath : String) (cc : Bool) (experiment : Option String) (ts : String) :
    (fs.lstatRes = Except.error () → process_file hash fs fpath cc experiment ts = none) ∧
    (cc = true → fs.isFileRes = Except.error () →
      process_file hash fs fpath cc experiment ts = none) ∧
    (cc = true → fs.isFileRes = Except.ok true → fs.readRes = Except.error () →
      process_file hash fs fpath cc experiment ts = none) ∧
    (∀ r : Record, process_file hash fs fpath cc experiment ts = some r →
      ((r.checksum).isSome = true ↔ (cc = true ∧ fs.isFileRes = Except.ok true))) ∧
    (∀ content, fs.readRes = Except.ok content →
      (∀ c ∈ (pyChunks 8192 content).dropLast, c.length = 8192) ∧
      (∀ c ∈ pyChunks 8192 content, 0 < c.length ∧ c.length ≤ 8192)) := by
  refine ⟨?_, ?_, ?_, ?_, ?_⟩
  · intro h
    unfold process_file
    rw [h]
  · intro hcc hisf
    subst hcc
    unfold process_file
    cases hls : fs.lstatRes with
    | error e => rfl
    | ok stat =>
      rw [hisf]
      rfl
  · intro hcc hisf hread
    subst hcc
    unfold process_file
    cases hls : fs.lstatRes with
    | error e => rfl
    | ok stat =>
      rw [hisf, hread]
      rfl
  · intro r hr
    unfold process_file at hr
    cases hls : fs.lstatRes with
    | error e => rw [hls] at hr; exact absurd hr (by simp)
    | ok stat =>
      rw [hls] at hr
      cases hcc : cc with
      | false =>
        subst hcc
        simp only [Bool.false_eq_true, if_false] at hr
        have := Option.some.inj hr
        rw [← this]
        simp
      | true =>
        subst hcc
        simp only [if_true] at hr
        cases hisf : fs.isFileRes with
        | error e => rw [hisf] at hr; exact absurd hr (by simp)
        | ok b =>
          rw [hisf] at hr
          cases b with
          | false =>
            have := Option.some.inj hr
            rw [← this]
            simp
          | true =>
            cases hread : fs.readRes with
            | error e => rw [hread] at hr; exact absurd hr (by simp)
            | ok content =>
              rw [hread] at hr
              have := Option.some.inj hr
              rw [← this]
              simp
  · intro content _
    constructor
    · exact pyChunksAux_dropLast_length content.length 8192 content (by norm_num) le_rfl
    · exact pyChunksAux_mem_length content.length 8192 content (by norm_num)

/-- Witness for C6's contract: a path whose `lstat` raises is skipped. -/
theorem process_file_contract_witness :
    (let fs : FSView := { lstatRes := Except.error (), isFileRes := Except.ok true, readRes := Except.ok [] }
     fs.lstatRes = Except.error () ∧
     process_file (fun _ => "h") fs "/p" true none "t" = none) := by
  refine ⟨rfl, ?_⟩
  exact (process_file_contract (fun _ => "h") _ "/p" true none "t").1 rfl

/-! ## Snapshot write atomicity (`_write_base` / `_write_delta` I/O) -/

/-- The outcome of `pq.write_table` on the temp file: success, or an IO
error after some incomplete rows were written. -/
inductive WriteOutcome where
  | success : WriteOutcome
  | ioError : List Record → WriteOutcome

/-- `_write_base` with its filesystem effect.  The temp name is
`output_path.with_suffix('.parquet.tmp')`, i.e. the final name plus
`.tmp` (the final name's last dot-suffix is `.parquet`).  On success the
temp is renamed onto the final name; on failure the exception propagates
and — the code having no cleanup handler — the temp entry stays. -/
def write_base_run (dir : Dir) (ts : String) (files : StateMap) (out : WriteOutcome) :
    Dir × Except Unit (ℕ × ℕ × ℕ) :=
  let records := files.map (fun pr => { pr.2 with on_disk := some true, status := none })
  if records = [] then (dir, Except.ok (0, 0, 0))
  else
    match out with
    | .success =>
        (dir ++ [("base_" ++ ts ++ ".parquet", records)], Except.ok (records.length, 0, 0))
    | .ioError written =>
        (dir ++ [(("base_" ++ ts ++ ".parquet") ++ ".tmp", written)], Except.error ())

/-- `_write_delta` with its filesystem effect (same temp-plus-rename
protocol as `write_base_run`). -/
def write_delta_run (dir : Dir) (ts : String) (current previous : StateMap)
    (out : WriteOutcome) : Dir × Except Unit (ℕ × ℕ × ℕ) :=
  let am := current.foldl (addedModifiedFold previous) ([], 0, 0)
  let rm := previous.foldl (removedFold current ts) (am.1, 0)
  if rm.1 = [] then (dir, Except.ok (0, 0, 0))
  else
    match out with
    | .success =>
        (dir ++ [("delta_" ++ ts ++ ".parquet", rm.1)], Except.ok (am.2.1, am.2.2, rm.2))
    | .ioError written =>
        (dir ++ [(("delta_" ++ ts ++ ".parquet") ++ ".tmp", written)], Except.error ())

theorem isParquetFile_append_tmp (x : String) : isParquetFile (x ++ ".tmp") = false := by
  unfold isParquetFile pyEndsWith
  rw [String.data_append]
  show (".parquet" : String).data.reverse.isPrefixOf
    ((x.data ++ (".tmp" : String).data).reverse) = false
  rw [List.reverse_append]
  have h1 : ((".tmp" : String).data).reverse = ['p', 'm', 't', '.'] := by decide
  have h2 : ((".parquet" : String).data).reverse =
      ['t', 'e', 'u', 'q', 'r', 'a', 'p', '.'] := by decide
  rw [h1, h2]
  simp [List.isPrefixOf]

/-- Appending a file that no snapshot glob matches does not change
reconstruction. -/
theorem load_append_nonparquet (dir : Dir) (n : String) (rows : List Record)
    (hn : isParquetFile n = false) :
    load_current_state (dir ++ [(n, rows)]) = load_current_state dir := by
  have hbase : (dir ++ [(n, rows)]).filter (fun f => isBaseFile f.1) =
      dir.filter (fun f => isBaseFile f.1) := by
    rw [List.filter_append]
    have : ([(n, rows)] : Dir).filter (fun f => isBaseFile f.1) = [] := by
      simp only [List.filter_cons, List.filter_nil]
      rw [if_neg]
      intro hc
      rw [isParquetFile_of_isBaseFile hc] at hn
      exact Bool.noConfusion hn
    rw [this, List.append_nil]
  have hdelta : (dir ++ [(n, rows)]).filter (fun f => isDeltaFile f.1) =
      dir.filter (fun f => isDeltaFile f.1) := by
    rw [List.filter_append]
    have : ([(n, rows)] : Dir).filter (fun f => isDeltaFile f.1) = [] := by
      simp only [List.filter_cons, List.filter_nil]
      rw [if_neg]
      intro hc
      rw [isParquetFile_of_isDeltaFile hc] at hn
      exact Bool.noConfusion hn
    rw [this, List.append_nil]
  unfold load_current_state find_latest_base find_deltas_after_base
  rw [hbase, hdelta]

theorem self_ne_append_tmp (s : String) : s ≠ s ++ ".tmp" := by
  intro h
  have hlen : s.data.length = (s ++ ".tmp").data.length := by rw [← h]
  rw [String.data_append] at hlen
  simp at hlen

/-- C5 counterexample: after a failed base write the `.tmp` entry is
still in the directory — the code has no cleanup handler, so "the temp
file is removed" is false. -/
theorem write_failure_keeps_temp :
    (let r0 : Record := { path := "/d/a", parent_path := "/d", filename := "a", size := some 1, mtime := some 10, owner := some "0", group_name := some "0", permissions := some 33188, checksum := none, experiment := some "e", run := none, indexed_at := "t1", on_disk := none, status := none }
     let res := write_base_run [] "T" [("/d/a", r0)] (WriteOutcome.ioError [])
     res.2 = Except.error () ∧
     ("base_T.parquet" ++ ".tmp") ∈ res.1.map Prod.fst) := by
  exact ⟨rfl, by decide⟩

/-- C5 (amended): every snapshot write goes to the sibling `.tmp` name
and is renamed onto the final name only on success, so no partial
content is ever observable under the final name; a temp entry matches no
snapshot glob and leaves reconstruction unchanged; on failure the error
is surfaced and the directory is unchanged except for the leftover
`.tmp` file (the code does not remove it). -/
theorem snapshot_write_atomicity (dir : Dir) (ts : String)
    (files current previous : StateMap) (written : List Record) :
    ((write_base_run dir ts files WriteOutcome.success).1 = dir ∨
     (write_base_run dir ts files WriteOutcome.success).1 =
       dir ++ [("base_" ++ ts ++ ".parquet",
         files.map (fun pr => { pr.2 with on_disk := some true, status := none }))]) ∧
    (files.map (fun pr => { pr.2 with on_disk := some true, status := none }) ≠ [] →
      (write_base_run dir ts files (WriteOutcome.ioError written)).2 = Except.error () ∧
      (write_base_run dir ts files (WriteOutcome.ioError written)).1 =
        dir ++ [(("base_" ++ ts ++ ".parquet") ++ ".tmp", written)]) ∧
    load_current_state (dir ++ [(("base_" ++ ts ++ ".parquet") ++ ".tmp", written)]) =
      load_current_state dir ∧
    isParquetFile (("base_" ++ ts ++ ".parquet") ++ ".tmp") = false ∧
    (("base_" ++ ts ++ ".parquet") ∉ dir.map Prod.fst →
      ("base_" ++ ts ++ ".parquet") ∉
        ((write_base_run dir ts files (WriteOutcome.ioError written)).1).map Prod.fst) ∧
    ((previous.foldl (removedFold current ts)
        ((current.foldl (addedModifiedFold previous) ([], 0, 0)).1, 0)).1 ≠ [] →
      (write_delta_run dir ts current previous (WriteOutcome.ioError written)).2 =
        Except.error () ∧
      (write_delta_run dir ts current previous (WriteOutcome.ioError written)).1 =
        dir ++ [(("delta_" ++ ts ++ ".parquet") ++ ".tmp", written)]) ∧
    load_current_state (dir ++ [(("delta_" ++ ts ++ ".parquet") ++ ".tmp", written)]) =
      load_current_state dir ∧
    isParquetFile (("delta_" ++ ts ++ ".parquet") ++ ".tmp") = false := by
  refine ⟨?_, ?_, ?_, ?_, ?_, ?_, ?_, ?_⟩
  · unfold write_base_run
    by_cases h : files.map (fun pr => { pr.2 with on_disk := some true, status := none }) = []
    · rw [if_pos h]
      exact Or.inl rfl
    · rw [if_neg h]
      exact Or.inr rfl
  · intro h
    unfold write_base_run
    rw [if_neg h]
    exact ⟨rfl, rfl⟩
  · exact load_append_nonparquet dir _ written (isParquetFile_append_tmp _)
  · exact isParquetFile_append_tmp _
  · intro hnotin hcontra
    unfold write_base_run at hcontra
    by_cases h : files.map (fun pr => { pr.2 with on_disk := some true, status := none }) = []
    · rw [if_pos h] at hcontra
      exact hnotin hcontra
    · rw [if_neg h] at hcontra
      simp only [List.map_append, List.mem_append] at hcontra
      rcases hcontra with hc | hc
      · exact hnotin hc
      · simp only [List.map_cons, List.map_nil, List.mem_singleton] at hc
        exact self_ne_append_tmp _ hc
  · intro h
    unfold write_delta_run
    rw [if_neg h]
    exact ⟨rfl, rfl⟩
  · exact load_append_nonparquet dir _ written (isParquetFile_append_tmp _)
  · exact isParquetFile_append_tmp _

/-- Witness for C5's amended contract on a concrete failed base write. -/
theorem snapshot_write_atomicity_witness :
    (let r0 : Record := { path := "/d/a", parent_path := "/d", filename := "a", size := some 1, mtime := some 10, owner := some "0", group_name := some "0", permissions := some 33188, checksum := none, experiment := some "e", run := none, indexed_at := "t1", on_disk := none, status := none }
     let files : StateMap := [("/d/a", r0)]
     files.map (fun pr => { pr.2 with on_disk := some true, status := none }) ≠ [] ∧
     (write_base_run [] "T" files (WriteOutcome.ioError [])).2 = Except.error ()) := by
  refine ⟨by decide, ?_⟩
  exact ((snapshot_write_atomicity [] "T" _ [] [] []).2.1 (by decide)).1

/-! ## Query layer (`ParquetCatalog._query_with_dedup` and callers) -/

/-- A catalog root: experiment directories by name. -/
abbrev Catalog : Type := List (String × Dir)

/-- One row of the logical `files` relation: the twelve selected columns
plus the derived `on_disk` bool. -/
structure QRow where
  path : String
  parent_path : String
  filename : String
  size : Option ℤ
  mtime : Option ℤ
  owner : Option String
  group_name : Option String
  permissions : Option ℤ
  checksum : Option String
  experiment : Option String
  run : Option ℤ
  indexed_at : String
  on_disk : Bool
deriving DecidableEq

/-- The dedup `CASE`: the stored `on_disk` when non-null, else
`status != 'removed'` when `status` is non-null, else true. -/
def effOnDisk (r : Record) : Bool :=
  match r.on_disk with
  | some b => b
  | none =>
      match r.status with
      | some s => decide (s ≠ "removed")
      | none => true

/-- Projection of a stored row onto the relation's columns. -/
def projectRow (r : Record) (eff : Bool) : QRow :=
  { path := r.path, parent_path := r.parent_path, filename := r.filename,
    size := r.size, mtime := r.mtime, owner := r.owner,
    group_name := r.group_name, permissions := r.permissions,
    checksum := r.checksum, experiment := r.experiment, run := r.run,
    indexed_at := r.indexed_at, on_disk := eff }

/-- `duckdb.read_parquet` over the files a glob matched: DuckDB raises
an IO error when no file matches; otherwise all their rows. -/
def readParquet (files : List (String × List Record)) : Except String (List Record) :=
  if files.isEmpty then Except.error "IO Error: No files found that match the pattern"
  else Except.ok ((files.map Prod.snd).flatten)

/-- The files of a directory that the `*.parquet` glob sees. -/
def parquetFiles (dir : Dir) : List (String × List Record) :=
  dir.filter (fun f => isParquetFile f.1)

/-- Whether the `delta_*.parquet` glob matches anything in the dir. -/
def hasDelta (dir : Dir) : Bool :=
  dir.any (fun f => isDeltaFile f.1)

/-- `SELECT ... WHERE _rn = 1` after
`ROW_NUMBER() OVER (PARTITION BY path ORDER BY indexed_at DESC)`: keep a
row iff it strictly dominates every other same-path row (with a unique
per-path maximum this is exactly rank 1; SQL breaks ties arbitrarily,
which the well-formedness hypotheses exclude). -/
def rankKeep (rows : List Record) : List Record :=
  rows.filter (fun r => rows.all (fun r2 =>
    !(decide (r2.path = r.path)) || decide (r2 = r) ||
      decide (r2.indexed_at < r.indexed_at)))

/-- The base-only stream: rows read directly, `COALESCE(on_disk, true)`. -/
def coalesceRows (rows : List Record) : List QRow :=
  rows.map (fun r => projectRow r (r.on_disk.getD true))

/-- The deduped stream: rank-1 rows with the effective `on_disk` CASE. -/
def dedupRows (rows : List Record) : List QRow :=
  (rankKeep rows).map (fun r => projectRow r (effOnDisk r))

/-- `_query_with_dedup`'s logical `files` relation: the fast path when
no experiment has deltas, the global dedup when none is base-only, and
otherwise the union of the direct base-only stream and the deduped
has-deltas stream. -/
def query_files (cat : Catalog) : Except String (List QRow) :=
  let all_exps := cat.filter (fun e => !(parquetFiles e.2).isEmpty)
  let exps_with_deltas := all_exps.filter (fun e => hasDelta e.2)
  let exps_base_only := all_exps.filter (fun e => !(hasDelta e.2))
  if exps_with_deltas.isEmpty then
    match readParquet ((cat.map (fun e => parquetFiles e.2)).flatten) with
    | Except.error e => Except.error e
    | Except.ok rows => Except.ok (coalesceRows rows)
  else if exps_base_only.isEmpty then
    match readParquet ((cat.map (fun e => parquetFiles e.2)).flatten) with
    | Except.error e => Except.error e
    | Except.ok rows => Except.ok (dedupRows rows)
  else
    match readParquet ((exps_base_only.map (fun e => parquetFiles e.2)).flatten) with
    | Except.error e => Except.error e
    | Except.ok baseRows =>
        match readParquet ((exps_with_deltas.map (fun e => parquetFiles e.2)).flatten) with
        | Except.error e => Except.error e
        | Except.ok deltaRows =>
            Except.ok (coalesceRows baseRows ++ dedupRows deltaRows)

/-- SQL `LIKE` with `%` and `_` wildcards (fuel-indexed matcher). -/
def likeMatchAux : ℕ → List Char → List Char → Bool
  | 0, p, s => p.isEmpty && s.isEmpty
  | fuel + 1, p, s =>
      match p, s with
      | [], [] => true
      | [], _ :: _ => false
      | '%' :: p', s =>
          likeMatchAux fuel p' s ||
            (match s with
             | [] => false
             | _ :: s' => likeMatchAux fuel ('%' :: p') s')
      | '_' :: p', [] => false
      | '_' :: p', _ :: s' => likeMatchAux fuel p' s'
      | c :: p', [] => false
      | c :: p', c' :: s' => (c = c') && likeMatchAux fuel p' s'

/-- `s LIKE pattern`. -/
def likeMatch (s pattern : String) : Bool :=
  likeMatchAux (pattern.data.length + s.data.length) pattern.data s.data

/-- The `on_disk = true` filter appended by `on_disk_only`. -/
def onDiskFilter (odo : Bool) (r : QRow) : Bool :=
  !odo || r.on_disk

/-- `ParquetCatalog.count`. -/
def count_q (cat : Catalog) (odo : Bool) : Except String ℕ :=
  (query_files cat).map (fun rows => (rows.filter (onDiskFilter odo)).length)

/-- `ParquetCatalog.total_size` (`COALESCE(SUM(size), 0)`: SQL SUM skips
nulls). -/
def total_size_q (cat : Catalog) (odo : Bool) : Except String ℤ :=
  (query_files cat).map (fun rows =>
    (((rows.filter (onDiskFilter odo)).map (fun r => r.size.getD 0)).sum))

/-- `ParquetCatalog.ls`: rows of one parent directory, by filename. -/
def ls_q (cat : Catalog) (path : String) (odo : Bool) : Except String (List QRow) :=
  (query_files cat).map (fun rows =>
    List.insertionSort (fun a b => a.filename ≤ b.filename)
      (rows.filter (fun r => decide (r.parent_path = path) && onDiskFilter odo r)))

/-- The grouping key of `ls_dirs`: the first path component of
`parent_path` after `path ++ "/"`. -/
def dirnameOf (pathPrefixLen : ℕ) (r : QRow) : String :=
  String.mk ((r.parent_path.data.drop pathPrefixLen).takeWhile (fun c => c ≠ '/'))

/-- `ParquetCatalog.ls_dirs`: aggregate `(dirname, total_size,
file_count)` over rows under `path ++ "/"`, dirnames sorted, the empty
dirname excluded. -/
def ls_dirs_q (cat : Catalog) (path : String) (odo : Bool) :
    Except String (List (String × ℤ × ℕ)) :=
  (query_files cat).map (fun rows =>
    let stripped := String.mk ((path.data.reverse.dropWhile (fun c => c = '/')).reverse)
    let pfx := stripped ++ "/"
    let sel := rows.filter (fun r =>
      likeMatch r.parent_path (pfx ++ "%") && !(decide (r.parent_path = stripped)) &&
        onDiskFilter odo r)
    let names := (((sel.map (dirnameOf pfx.data.length)).dedup).filter
      (fun d => !(d = ""))).insertionSort (fun a b => a ≤ b)
    names.map (fun d =>
      let grp := sel.filter (fun r => decide (dirnameOf pfx.data.length r = d))
      (d, (grp.map (fun r => r.size.getD 0)).sum, grp.length)))

/-- `ParquetCatalog.find`: LIKE plus the optional predicates. -/
def find_q (cat : Catalog) (pattern : String) (size_gt size_lt : Option ℤ)
    (experiment : Option String) (exclude : List String)
    (odo removed_only skip_symlinks : Bool) : Except String (List QRow) :=
  (query_files cat).map (fun rows =>
    List.insertionSort (fun a b => a.path ≤ b.path)
      (rows.filter (fun r =>
        likeMatch r.path pattern &&
        exclude.all (fun pat => !(likeMatch r.path pat)) &&
        (match size_gt with
         | none => true
         | some g => match r.size with | none => false | some s => decide (g < s)) &&
        (match size_lt with
         | none => true
         | some lt => match r.size with | none => false | some s => decide (s < lt)) &&
        (match experiment with
         | none => true
         | some e => decide (r.experiment = some e)) &&
        (!odo || r.on_disk) &&
        (!removed_only || !r.on_disk) &&
        (!skip_symlinks ||
          (match r.permissions with
           | none => false
           | some m => !(decide (m.toNat.land 61440 = 40960)))))))

/-- `ParquetCatalog.get_stats`: the four aggregates of one query. -/
def get_stats_q (cat : Catalog) : Except String (ℕ × ℕ × ℤ × ℤ) :=
  (query_files cat).map (fun rows =>
    (rows.length,
     (rows.filter (fun r => r.on_disk)).length,
     (rows.map (fun r => r.size.getD 0)).sum,
     ((rows.filter (fun r => r.on_disk)).map (fun r => r.size.getD 0)).sum))

/-- `ParquetCatalog.query`: ad-hoc read access to the relation. -/
def query_q (cat : Catalog) : Except String (List QRow) :=
  query_files cat

/-- C8: on a catalog whose directory holds no snapshot files at all,
every query operation errors rather than returning zero or an empty
result: the fast path's `read_parquet` glob matches no files, which
DuckDB reports as an IO error. -/
theorem queries_raise_on_empty_catalog (cat : Catalog)
    (h : ∀ e ∈ cat, parquetFiles e.2 = []) :
    query_files cat = Except.error "IO Error: No files found that match the pattern" ∧
    (∀ odo, count_q cat odo =
      Except.error "IO Error: No files found that match the pattern") ∧
    (∀ odo, total_size_q cat odo =
      Except.error "IO Error: No files found that match the pattern") ∧
    (∀ path odo, ls_q cat path odo =
      Except.error "IO Error: No files found that match the pattern") ∧
    (∀ path odo, ls_dirs_q cat path odo =
      Except.error "IO Error: No files found that match the pattern") ∧
    (∀ pattern gt lt exp excl odo ro ss,
      find_q cat pattern gt lt exp excl odo ro ss =
        Except.error "IO Error: No files found that match the pattern") ∧
    get_stats_q cat = Except.error "IO Error: No files found that match the pattern" ∧
    query_q cat = Except.error "IO Error: No files found that match the pattern" := by
  have hall : cat.filter (fun e => !(parquetFiles e.2).isEmpty) = [] := by
    apply List.filter_eq_nil_iff.mpr
    intro e he
    rw [h e he]
    simp
  have hlists : ∀ x ∈ cat.map (fun e => parquetFiles e.2), x = [] := by
    intro x hx
    obtain ⟨e, he, hxe⟩ := List.mem_map.mp hx
    rw [← hxe]
    exact h e he
  have hflat : (cat.map (fun e => parquetFiles e.2)).flatten = [] := by
    rw [List.flatten_eq_nil_iff]
    exact hlists
  have hq : query_files cat =
      Except.error "IO Error: No files found that match the pattern" := by
    simp only [query_files]
    rw [hall, hflat]
    rfl
  refine ⟨hq, fun odo => ?_, fun odo => ?_, fun path odo => ?_, fun path odo => ?_,
    fun pattern gt lt exp excl odo ro ss => ?_, ?_, ?_⟩ <;>
    simp [count_q, total_size_q, ls_q, ls_dirs_q, find_q, get_stats_q, query_q, hq,
      Except.map]

/-- Witness for C8 on a catalog of one experiment directory holding a
stray non-parquet file and nothing else. -/
theorem queries_raise_on_empty_catalog_witness :
    (let cat : Catalog := [("e1", [("notes.txt", [])])]
     (∀ e ∈ cat, parquetFiles e.2 = []) ∧
     query_files cat = Except.error "IO Error: No files found that match the pattern") := by
  refine ⟨by decide, ?_⟩
  exact (queries_raise_on_empty_catalog _ (by decide)).1

/-! ## Per-path view of the reconstruction fold -/

theorem dictGet?_dictSet_eq {α : Type} :
    ∀ (st : List (String × α)) (k : String) (v : α), dictGet? (dictSet st k v) k = some v := by
  intro st
  induction st with
  | nil => intro k v; simp [dictSet, dictGet?]
  | cons hd tl ih =>
    intro k v
    unfold dictSet
    by_cases he : hd.1 = k
    · rw [if_pos he]
      simp [dictGet?]
    · rw [if_neg he]
      unfold dictGet?
      rw [if_neg he]
      exact ih k v

theorem dictGet?_dictSet_ne {α : Type} :
    ∀ (st : List (String × α)) (k p : String) (v : α), k ≠ p →
      dictGet? (dictSet st k v) p = dictGet? st p := by
  intro st
  induction st with
  | nil => intro k p v hk; simp [dictSet, dictGet?, fun h => hk h]
  | cons hd tl ih =>
    intro k p v hk
    unfold dictSet
    by_cases he : hd.1 = k
    · rw [if_pos he]
      unfold dictGet?
      rw [if_neg (he ▸ hk), if_neg (he ▸ hk)]
    · rw [if_neg he]
      unfold dictGet?
      by_cases hp : hd.1 = p
      · rw [if_pos hp, if_pos hp]
      · rw [if_neg hp, if_neg hp]
        exact ih k p v hk

/-- What one delta row does to the value stored at its own path. -/
def stepOption (o : Option Record) (r : Record) : Option Record :=
  if r.status = some "removed" then
    match o with
    | some old => some { old with on_disk := some false, indexed_at := r.indexed_at }
    | none => none
  else
    some { r with status := none, on_disk := some true }

theorem dictGet?_applyDeltaRow (st : StateMap) (r : Record) (p : String) :
    dictGet? (applyDeltaRow st r) p =
      if r.path = p then stepOption (dictGet? st p) r else dictGet? st p := by
  by_cases hrem : r.status = some "removed"
  · cases hold : dictGet? st r.path with
    | none =>
      have hL : applyDeltaRow st r = st := by
        unfold applyDeltaRow
        rw [if_pos hrem, hold]
      rw [hL]
      by_cases hp : r.path = p
      · rw [if_pos hp]
        unfold stepOption
        rw [if_pos hrem, ← hp, hold]
      · rw [if_neg hp]
    | some old =>
      have hL : applyDeltaRow st r =
          dictSet st r.path { old with on_disk := some false, indexed_at := r.indexed_at } := by
        unfold applyDeltaRow
        rw [if_pos hrem, hold]
      rw [hL]
      by_cases hp : r.path = p
      · rw [if_pos hp]
        unfold stepOption
        rw [if_pos hrem, ← hp, hold]
        exact dictGet?_dictSet_eq st r.path _
      · rw [if_neg hp]
        exact dictGet?_dictSet_ne st r.path p _ hp
  · have hL : applyDeltaRow st r =
        dictSet st r.path { r with status := none, on_disk := some true } := by
      unfold applyDeltaRow
      rw [if_neg hrem]
    rw [hL]
    by_cases hp : r.path = p
    · rw [if_pos hp]
      unfold stepOption
      rw [if_neg hrem, ← hp]
      exact dictGet?_dictSet_eq st r.path _
    · rw [if_neg hp]
      exact dictGet?_dictSet_ne st r.path p _ hp

theorem dictGet?_foldDeltaRows (p : String) :
    ∀ (rows : List Record) (st : StateMap),
      dictGet? (rows.foldl applyDeltaRow st) p =
        (rows.filter (fun r => decide (r.path = p))).foldl stepOption (dictGet? st p) := by
  intro rows
  induction rows with
  | nil => intro st; rfl
  | cons r tl ih =>
    intro st
    rw [List.foldl_cons, ih, List.filter_cons]
    by_cases hp : r.path = p
    · rw [if_pos (by simp [hp]), List.foldl_cons, dictGet?_applyDeltaRow, if_pos hp]
    · rw [if_neg (by simp [hp]), dictGet?_applyDeltaRow, if_neg hp]

theorem dictGet?_loadBaseRows (p : String) :
    ∀ (rows : List Record) (acc : StateMap),
      dictGet? (rows.foldl (fun st r => dictSet st r.path r) acc) p =
        (rows.filter (fun r => decide (r.path = p))).foldl (fun _ r => some r)
          (dictGet? acc p) := by
  intro rows
  induction rows with
  | nil => intro acc; rfl
  | cons r tl ih =>
    intro acc
    rw [List.foldl_cons, ih, List.filter_cons]
    by_cases hp : r.path = p
    · rw [if_pos (by simp [hp]), List.foldl_cons, ← hp, dictGet?_dictSet_eq]
    · rw [if_neg (by simp [hp]), dictGet?_dictSet_ne _ _ _ _ hp]

theorem foldl_some_getLast? {β : Type} :
    ∀ (l : List β) (init : Option β),
      l.foldl (fun _ r => some r) init =
        match l.getLast? with
        | some r => some r
        | none => init := by
  intro l
  induction l with
  | nil => intro init; rfl
  | cons x t ih =>
    intro init
    rw [List.foldl_cons, ih]
    cases t with
    | nil => rfl
    | cons y u =>
      rw [List.getLast?_cons_cons]
      cases h : (y :: u).getLast? with
      | some r => rfl
      | none => simp at h

theorem isDeltaFile_eq_false_of_isBaseFile {n : String} (h : isBaseFile n = true) :
    isDeltaFile n = false := by
  unfold isBaseFile pyStartsWith at h
  rw [Bool.and_eq_true, List.isPrefixOf_iff_prefix] at h
  obtain ⟨⟨t, ht⟩, _⟩ := h
  unfold isDeltaFile pyStartsWith
  have hpre : List.isPrefixOf ("delta_" : String).data n.data = false := by
    rw [Bool.eq_false_iff]
    intro hc
    rw [List.isPrefixOf_iff_prefix] at hc
    obtain ⟨u, hu⟩ := hc
    rw [← ht] at hu
    have hb : ("base_" : String).data = 'b' :: "ase_".data := by decide
    have hd : ("delta_" : String).data = 'd' :: "elta_".data := by decide
    rw [hb, hd] at hu
    simp at hu
  rw [hpre]
  rfl

theorem isBaseFile_eq_false_of_isDeltaFile {n : String} (h : isDeltaFile n = true) :
    isBaseFile n = false := by
  unfold isDeltaFile pyStartsWith at h
  rw [Bool.and_eq_true, List.isPrefixOf_iff_prefix] at h
  obtain ⟨⟨t, ht⟩, _⟩ := h
  unfold isBaseFile pyStartsWith
  have hpre : List.isPrefixOf ("base_" : String).data n.data = false := by
    rw [Bool.eq_false_iff]
    intro hc
    rw [List.isPrefixOf_iff_prefix] at hc
    obtain ⟨u, hu⟩ := hc
    rw [← ht] at hu
    have hb : ("base_" : String).data = 'b' :: "ase_".data := by decide
    have hd : ("delta_" : String).data = 'd' :: "elta_".data := by decide
    rw [hb, hd] at hu
    simp at hu
  rw [hpre]
  rfl

/-- Reconstruction over a directory whose head is the only base and whose
tail is the sorted list of applicable deltas is exactly the delta fold over
the loaded base rows. -/
theorem load_unfold (bn : String) (brows : List Record)
    (deltas : List (String × List Record))
    (hb : isBaseFile bn = true)
    (hd : ∀ d ∈ deltas, isDeltaFile d.1 = true ∧ pyReplace bn "base_" "delta_" < d.1)
    (hsorted : deltas.Pairwise (fun a b => a.1 < b.1)) :
    load_current_state ((bn, brows) :: deltas) =
      deltas.foldl (fun st f => f.2.foldl applyDeltaRow st) (loadBaseRows brows) := by
  have hfb : List.filter (fun f => isBaseFile f.1) ((bn, brows) :: deltas) = [(bn, brows)] := by
    rw [List.filter_cons_of_pos (by simpa using hb)]
    have hnil : List.filter (fun f => isBaseFile f.1) deltas = [] :=
      List.filter_eq_nil_iff.mpr (fun d hdm => by
        simp [isBaseFile_eq_false_of_isDeltaFile (hd d hdm).1])
    rw [hnil]
  have hfd : List.filter (fun f => isDeltaFile f.1) ((bn, brows) :: deltas) = deltas := by
    rw [List.filter_cons_of_neg (by simp [isDeltaFile_eq_false_of_isBaseFile hb])]
    exact List.filter_eq_self.mpr (fun d hdm => by simp [(hd d hdm).1])
  have hs1 : sortByName [(bn, brows)] = [(bn, brows)] := by
    unfold sortByName
    simp [List.insertionSort]
  have hss : sortByName deltas = deltas :=
    List.Sorted.insertionSort_eq (hsorted.imp (fun h => le_of_lt h))
  have h1 : find_latest_base ((bn, brows) :: deltas) = some (bn, brows) := by
    unfold find_latest_base
    rw [hfb, hs1]
    rfl
  have h2 : find_deltas_after_base ((bn, brows) :: deltas) (some (bn, brows)) = deltas := by
    unfold find_deltas_after_base
    rw [hfd, hss]
    exact List.filter_eq_self.mpr (fun d hdm => by simp [(hd d hdm).2])
  unfold load_current_state
  rw [h1]
  dsimp only
  rw [h2]

/-- The last row mentioning path `p` in a row stream (in file-then-row
order): this is what `ROW_NUMBER() OVER (PARTITION BY path ORDER BY
indexed_at DESC) = 1` keeps when `indexed_at` increases along each
path's mentions. -/
def lastMention (rows : List Record) (p : String) : Option Record :=
  (rows.filter (fun r => decide (r.path = p))).getLast?

/-- Along each path, successive mentions carry strictly increasing
`indexed_at` stamps (true of any real catalog: every snapshot stamps a
fresh wall-clock ISO timestamp). -/
def MonoStamps (rows : List Record) : Prop :=
  ∀ p, (rows.filter (fun r => decide (r.path = p))).Pairwise
    (fun a b => a.indexed_at < b.indexed_at)

/-- All data rows of an experiment directory, in file order. -/
def allRows (dir : Dir) : List Record :=
  (dir.map Prod.snd).flatten

theorem mem_of_getLast?_some {β : Type} {l : List β} {a : β}
    (h : l.getLast? = some a) : a ∈ l := by
  have hne : l ≠ [] := by intro he; rw [he] at h; simp at h
  have heq := List.getLast?_eq_getLast l hne
  rw [heq] at h
  rw [← Option.some.inj h]
  exact List.getLast_mem hne

theorem mem_dropLast_or_eq_of_getLast? {β : Type} {l : List β} {L : β}
    (hL : l.getLast? = some L) {x : β} (hx : x ∈ l) :
    x ∈ l.dropLast ∨ x = L := by
  have hne : l ≠ [] := by intro he; rw [he] at hL; simp at hL
  have hdec : l.dropLast ++ [l.getLast hne] = l := List.dropLast_append_getLast hne
  have hLe : l.getLast hne = L := by
    have heq := List.getLast?_eq_getLast l hne
    rw [heq] at hL
    exact Option.some.inj hL
  rw [← hdec] at hx
  rcases List.mem_append.mp hx with h1 | h2
  · exact Or.inl h1
  · right
    rw [List.mem_singleton] at h2
    rw [h2, hLe]

theorem dropLast_lt_getLast? {l : List Record} {L : Record}
    (hp : l.Pairwise (fun a b => a.indexed_at < b.indexed_at))
    (hL : l.getLast? = some L) :
    ∀ x ∈ l.dropLast, x.indexed_at < L.indexed_at := by
  have hne : l ≠ [] := by intro he; rw [he] at hL; simp at hL
  have hdec : l.dropLast ++ [l.getLast hne] = l := List.dropLast_append_getLast hne
  have hLe : l.getLast hne = L := by
    have heq := List.getLast?_eq_getLast l hne
    rw [heq] at hL
    exact Option.some.inj hL
  rw [← hdec] at hp
  rw [List.pairwise_append] at hp
  intro x hx
  have := hp.2.2 x hx (l.getLast hne) (List.mem_singleton_self _)
  rw [hLe] at this
  exact this

/-- Under strictly increasing per-path stamps, rank-1-per-path is
exactly "this row is its path's last mention". -/
theorem rankKeep_eq_lastMention_filter (rows : List Record)
    (hm : MonoStamps rows) :
    rankKeep rows =
      rows.filter (fun r => decide (lastMention rows r.path = some r)) := by
  unfold rankKeep
  apply List.filter_congr
  intro r hr
  have hrchain : r ∈ rows.filter (fun x => decide (x.path = r.path)) := by
    rw [List.mem_filter]
    exact ⟨hr, by simp⟩
  by_cases hcase : lastMention rows r.path = some r
  · rw [decide_eq_true hcase]
    rw [List.all_eq_true]
    intro r2 hr2
    by_cases hp2 : r2.path = r.path
    · unfold lastMention at hcase
      have hmem2 : r2 ∈ rows.filter (fun x => decide (x.path = r.path)) := by
        rw [List.mem_filter]
        exact ⟨hr2, by simp [hp2]⟩
      rcases mem_dropLast_or_eq_of_getLast? hcase hmem2 with h1 | h2
      · have := dropLast_lt_getLast? (hm r.path) hcase r2 h1
        simp [this]
      · simp [h2]
    · simp [hp2]
  · rw [decide_eq_false hcase]
    unfold lastMention at hcase
    cases hLc : (rows.filter (fun x => decide (x.path = r.path))).getLast? with
    | none =>
      rw [List.getLast?_eq_none_iff] at hLc
      rw [hLc] at hrchain
      simp at hrchain
    | some L =>
      rw [Bool.eq_false_iff]
      intro hall
      rw [List.all_eq_true] at hall
      have hLmem : L ∈ rows.filter (fun x => decide (x.path = r.path)) :=
        mem_of_getLast?_some hLc
      rw [List.mem_filter] at hLmem
      have hLpath : L.path = r.path := by
        have := hLmem.2
        simpa using this
      have hLr : L ≠ r := by
        intro he
        exact hcase (he ▸ hLc)
      have hcond := hall L hLmem.1
      rw [Bool.or_eq_true, Bool.or_eq_true] at hcond
      rcases hcond with (hc1 | hc2) | hc3
      · simp [hLpath] at hc1
      · exact hLr (of_decide_eq_true hc2)
      · have hlt3 := of_decide_eq_true hc3
        rcases mem_dropLast_or_eq_of_getLast? hLc hrchain with h1 | h2
        · have hlt := dropLast_lt_getLast? (hm r.path) hLc r h1
          exact absurd hlt3 (not_lt_of_lt hlt)
        · exact hLr h2.symm

/-- A path-keyed list holds at most one row of any given path. -/
theorem filter_path_of_nodup {l : List Record}
    (hn : (l.map Record.path).Nodup) (p : String) :
    l.filter (fun r => decide (r.path = p)) = [] ∨
      ∃ r, l.filter (fun r => decide (r.path = p)) = [r] ∧ r ∈ l ∧ r.path = p := by
  induction l with
  | nil => left; rfl
  | cons x t ih =>
    rw [List.map_cons, List.nodup_cons] at hn
    rw [List.filter_cons]
    by_cases hx : x.path = p
    · rw [if_pos (by simp [hx])]
      have ht : t.filter (fun r => decide (r.path = p)) = [] := by
        rw [List.filter_eq_nil_iff]
        intro a ha hap
        apply hn.1
        rw [List.mem_map]
        refine ⟨a, ha, ?_⟩
        simp at hap
        rw [hap, hx]
      rw [ht]
      right
      exact ⟨x, rfl, List.mem_cons_self x t, hx⟩
    · rw [if_neg (by simp [hx])]
      rcases ih hn.2 with h | ⟨r, h1, h2, h3⟩
      · left; exact h
      · right; exact ⟨r, h1, List.mem_cons_of_mem x h2, h3⟩

theorem effOnDisk_of_some {r : Record} {b : Bool} (h : r.on_disk = some b) :
    effOnDisk r = b := by
  unfold effOnDisk
  rw [h]

theorem effOnDisk_not_removed {r : Record} (h1 : r.on_disk = none)
    (h2 : ¬ r.status = some "removed") : effOnDisk r = true := by
  unfold effOnDisk
  rw [h1]
  cases hs : r.status with
  | none => rfl
  | some s =>
    rw [decide_eq_true_iff]
    intro he
    exact h2 (by rw [hs, he])

theorem effOnDisk_removed {r : Record} (h1 : r.on_disk = none)
    (h2 : r.status = some "removed") : effOnDisk r = false := by
  unfold effOnDisk
  rw [h1, h2]
  simp

/-- Every stored record of a map carries a boolean `on_disk`. -/
def onDiskSome (st : StateMap) : Prop := ∀ e ∈ st, ∃ b, e.2.on_disk = some b

theorem onDiskSome_applyDeltaRow {st : StateMap} (h : onDiskSome st) (r : Record) :
    onDiskSome (applyDeltaRow st r) := by
  unfold applyDeltaRow
  by_cases hrem : r.status = some "removed"
  · rw [if_pos hrem]
    cases hold : dictGet? st r.path with
    | none => exact h
    | some old =>
      intro e he
      rcases mem_dictSet he with rfl | he'
      · exact ⟨false, rfl⟩
      · exact h e he'
  · rw [if_neg hrem]
    intro e he
    rcases mem_dictSet he with rfl | he'
    · exact ⟨true, rfl⟩
    · exact h e he'

theorem onDiskSome_foldDeltaRows {st : StateMap} (h : onDiskSome st) (rows : List Record) :
    onDiskSome (rows.foldl applyDeltaRow st) := by
  induction rows generalizing st with
  | nil => exact h
  | cons r tl ih =>
    rw [List.foldl_cons]
    exact ih (onDiskSome_applyDeltaRow h r)

theorem onDiskSome_foldFiles {st : StateMap} (h : onDiskSome st)
    (files : List (String × List Record)) :
    onDiskSome (files.foldl (fun s f => f.2.foldl applyDeltaRow s) st) := by
  induction files generalizing st with
  | nil => exact h
  | cons f tl ih =>
    rw [List.foldl_cons]
    exact ih (onDiskSome_foldDeltaRows h f.2)

theorem onDiskSome_loadBaseRows_aux :
    ∀ (rows : List Record) (acc : StateMap), (∀ r ∈ rows, ∃ b, r.on_disk = some b) →
      onDiskSome acc →
      onDiskSome (rows.foldl (fun st r => dictSet st r.path r) acc) := by
  intro rows
  induction rows with
  | nil => intro acc _ hacc; exact hacc
  | cons r tl ih =>
    intro acc h hacc
    rw [List.foldl_cons]
    refine ih _ (fun r2 hr2 => h r2 (List.mem_cons_of_mem _ hr2)) ?_
    intro e he
    rcases mem_dictSet he with rfl | he'
    · exact h r (List.mem_cons_self _ _)
    · exact hacc e he'

theorem onDiskSome_loadBaseRows {rows : List Record}
    (h : ∀ r ∈ rows, ∃ b, r.on_disk = some b) : onDiskSome (loadBaseRows rows) :=
  onDiskSome_loadBaseRows_aux rows [] h (by intro e he; simp at he)

/-- Pointwise heart of the dedup/fold equivalence: after folding the delta
files over the loaded base, the state's coalesced entry at any path is the
dedup projection of that path's last mention in the concatenated row
stream. -/
theorem state_entry_eq_lastMention (brows : List Record)
    (hbase : ∀ r ∈ brows, (∃ b, r.on_disk = some b) ∧ r.status = none) :
    ∀ (deltas : List (String × List Record)),
      (∀ d ∈ deltas, ∀ r ∈ d.2, r.on_disk = none) →
      (∀ d ∈ deltas, (d.2.map Record.path).Nodup) →
      (∀ pre d post, deltas = pre ++ d :: post → ∀ r ∈ d.2,
        r.status = some "removed" →
        ∃ m, dictGet? (pre.foldl (fun st f => f.2.foldl applyDeltaRow st)
            (loadBaseRows brows)) r.path = some m ∧
          r = { m with indexed_at := r.indexed_at, on_disk := none, status := some "removed" }) →
      ∀ p,
        (dictGet? (deltas.foldl (fun st f => f.2.foldl applyDeltaRow st)
            (loadBaseRows brows)) p).map
          (fun m => projectRow m (m.on_disk.getD true)) =
        (lastMention (brows ++ (deltas.map Prod.snd).flatten) p).map
          (fun r => projectRow r (effOnDisk r)) := by
  intro deltas
  induction deltas using List.reverseRecOn with
  | nil =>
    intro _ _ _ p
    rw [List.foldl_nil]
    unfold loadBaseRows
    rw [dictGet?_loadBaseRows, foldl_some_getLast?]
    unfold lastMention
    simp only [List.map_nil, List.flatten_nil, List.append_nil]
    cases hL : (brows.filter (fun r => decide (r.path = p))).getLast? with
    | none => rfl
    | some r =>
      have hmem := mem_of_getLast?_some hL
      rw [List.mem_filter] at hmem
      obtain ⟨⟨b, hb⟩, _⟩ := hbase r hmem.1
      show some (projectRow r (r.on_disk.getD true)) = some (projectRow r (effOnDisk r))
      rw [hb, effOnDisk_of_some hb]
      rfl
  | append_singleton ds d ih =>
    intro hod hnd hrem p
    have hdm : d ∈ ds ++ [d] := List.mem_append_right _ (List.mem_singleton_self d)
    rw [List.foldl_append, List.foldl_cons, List.foldl_nil]
    rw [dictGet?_foldDeltaRows]
    unfold lastMention
    simp only [List.map_append, List.map_cons, List.map_nil, List.flatten_append,
      List.flatten_cons, List.flatten_nil, List.append_nil]
    rw [← List.append_assoc, List.filter_append]
    have hod' : ∀ d2 ∈ ds, ∀ r ∈ d2.2, r.on_disk = none :=
      fun d2 h2 => hod d2 (List.mem_append_left _ h2)
    have hnd' : ∀ d2 ∈ ds, (d2.2.map Record.path).Nodup :=
      fun d2 h2 => hnd d2 (List.mem_append_left _ h2)
    have hrem' : ∀ pre d2 post, ds = pre ++ d2 :: post → ∀ r ∈ d2.2,
        r.status = some "removed" →
        ∃ m, dictGet? (pre.foldl (fun st f => f.2.foldl applyDeltaRow st)
            (loadBaseRows brows)) r.path = some m ∧
          r = { m with indexed_at := r.indexed_at, on_disk := none, status := some "removed" } :=
      fun pre d2 post heq => hrem pre d2 (post ++ [d]) (by rw [heq]; simp)
    have hIH := ih hod' hnd' hrem' p
    unfold lastMention at hIH
    rcases filter_path_of_nodup (hnd d hdm) p with hfil | ⟨r, hfil, hrm, hrp⟩
    · rw [hfil, List.foldl_nil, List.append_nil]
      exact hIH
    · rw [hfil, List.foldl_cons, List.foldl_nil, List.getLast?_concat]
      by_cases hs : r.status = some "removed"
      · obtain ⟨m, hget, hr⟩ := hrem ds d [] rfl r hrm hs
        rw [hrp] at hget
        rw [hget]
        unfold stepOption
        rw [if_pos hs]
        have hrod : r.on_disk = none := by rw [hr]
        show some (projectRow { m with on_disk := some false, indexed_at := r.indexed_at }
            ((some false).getD true)) = some (projectRow r (effOnDisk r))
        rw [effOnDisk_removed hrod hs]
        conv_rhs => rw [hr]
        rfl
      · unfold stepOption
        rw [if_neg hs]
        show some (projectRow { r with status := none, on_disk := some true }
            ((some true).getD true)) = some (projectRow r (effOnDisk r))
        rw [effOnDisk_not_removed (hod d hdm r hrm) hs]
        rfl

theorem find?_erase_of_neg {β : Type} [DecidableEq β] (pb : β → Bool) (a : β)
    (ha : pb a = false) :
    ∀ l : List β, (l.erase a).find? pb = l.find? pb := by
  intro l
  induction l with
  | nil => rfl
  | cons y u ih =>
    by_cases hy : y = a
    · subst hy
      rw [List.erase_cons_head, List.find?_cons_of_neg _ (by simp [ha])]
    · rw [List.erase_cons_tail (by simp [hy])]
      cases hpy : pb y with
      | false =>
        rw [List.find?_cons_of_neg _ (by simp [hpy]), List.find?_cons_of_neg _ (by simp [hpy])]
        exact ih
      | true =>
        rw [List.find?_cons_of_pos _ hpy, List.find?_cons_of_pos _ hpy]

/-- Two key-unique lists agreeing on every keyed lookup are permutations
of one another. -/
theorem perm_of_keyed_find?_eq {β : Type} [DecidableEq β] (key : β → String) :
    ∀ (l1 l2 : List β), (l1.map key).Nodup → (l2.map key).Nodup →
      (∀ p, l1.find? (fun x => decide (key x = p)) =
        l2.find? (fun x => decide (key x = p))) →
      List.Perm l1 l2 := by
  intro l1
  induction l1 with
  | nil =>
    intro l2 _ _ hf
    cases l2 with
    | nil => exact List.Perm.refl []
    | cons y t =>
      have h := hf (key y)
      rw [List.find?_cons_of_pos _ (by simp)] at h
      simp at h
  | cons x t ih =>
    intro l2 hn1 hn2 hf
    have hfx : l2.find? (fun z => decide (key z = key x)) = some x := by
      rw [← hf (key x)]
      exact List.find?_cons_of_pos _ (by simp)
    have hx2 : x ∈ l2 := List.mem_of_find?_eq_some hfx
    rw [List.map_cons, List.nodup_cons] at hn1
    have hperm2 : List.Perm l2 (x :: l2.erase x) := List.perm_cons_erase hx2
    have hkey_erase : ((l2.erase x).map key).Nodup :=
      hn2.sublist (List.Sublist.map key (List.erase_sublist x l2))
    have hf2 : ∀ p, t.find? (fun z => decide (key z = p)) =
        (l2.erase x).find? (fun z => decide (key z = p)) := by
      intro p
      by_cases hp : p = key x
      · subst hp
        have h1 : t.find? (fun z => decide (key z = key x)) = none := by
          rw [List.find?_eq_none]
          intro y hy
          simp only [decide_eq_true_eq]
          intro hk
          exact hn1.1 (hk ▸ List.mem_map_of_mem key hy)
        have h2 : (l2.erase x).find? (fun z => decide (key z = key x)) = none := by
          rw [List.find?_eq_none]
          intro y hy
          simp only [decide_eq_true_eq]
          intro hk
          have hl2 : l2.Nodup := hn2.of_map
          rw [List.Nodup.mem_erase_iff hl2] at hy
          exact hy.1 (List.inj_on_of_nodup_map hn2 hy.2 hx2 hk)
        rw [h1, h2]
      · have h3 := hf p
        rw [List.find?_cons_of_neg _ (by simp; exact fun hc => hp hc.symm)] at h3
        rw [find?_erase_of_neg _ x (by simp; exact fun hc => hp hc.symm) l2]
        exact h3
    exact (List.Perm.cons x (ih (l2.erase x) hn1.2 hkey_erase hf2)).trans hperm2.symm

/-- The state fold's contribution to the logical relation: one projected
row per stored entry, `on_disk` coalesced to true. -/
def stateProj (st : StateMap) : List QRow :=
  st.map (fun pr => projectRow pr.2 (pr.2.on_disk.getD true))

theorem stateProj_find? (p : String) :
    ∀ (st : StateMap), pathsConsistent st →
      (stateProj st).find? (fun q => decide (q.path = p)) =
        (dictGet? st p).map (fun m => projectRow m (m.on_disk.getD true)) := by
  intro st
  induction st with
  | nil => intro _; rfl
  | cons e tl ih =>
    intro hp
    obtain ⟨k, v⟩ := e
    have hpath : v.path = k := hp (k, v) (List.mem_cons_self _ _)
    unfold stateProj
    rw [List.map_cons]
    by_cases he : k = p
    · rw [List.find?_cons_of_pos _ (by simp [projectRow, hpath, he])]
      unfold dictGet?
      rw [if_pos he]
      rfl
    · rw [List.find?_cons_of_neg _ (by simp [projectRow, hpath, he])]
      unfold dictGet?
      rw [if_neg he]
      exact ih (fun x hx => hp x (List.mem_cons_of_mem _ hx))

theorem find?_eq_some_of_unique {β : Type} (pb : β → Bool) :
    ∀ (l : List β) (x : β), x ∈ l → pb x = true →
      (∀ y ∈ l, pb y = true → y = x) → l.find? pb = some x := by
  intro l
  induction l with
  | nil => intro x hx; simp at hx
  | cons z u ih =>
    intro x hx hpx huniq
    cases hpz : pb z with
    | true =>
      rw [List.find?_cons_of_pos _ hpz]
      rw [huniq z (List.mem_cons_self _ _) hpz]
    | false =>
      rw [List.find?_cons_of_neg _ (by simp [hpz])]
      rcases List.mem_cons.mp hx with rfl | hx2
      · simp [hpx] at hpz
      · exact ih x hx2 hpx (fun y hy hpy => huniq y (List.mem_cons_of_mem _ hy) hpy)

theorem dedupRows_find? (rows : List Record) (hm : MonoStamps rows) (p : String) :
    (dedupRows rows).find? (fun q => decide (q.path = p)) =
      (lastMention rows p).map (fun r => projectRow r (effOnDisk r)) := by
  unfold dedupRows
  rw [rankKeep_eq_lastMention_filter rows hm]
  cases hL : lastMention rows p with
  | none =>
    simp only [Option.map_none']
    rw [List.find?_eq_none]
    intro q hq hpq
    rw [List.mem_map] at hq
    obtain ⟨r, hr, rfl⟩ := hq
    rw [List.mem_filter] at hr
    have hlast : lastMention rows r.path = some r := of_decide_eq_true hr.2
    have hpq2 : r.path = p := by simpa [projectRow] using hpq
    rw [hpq2, hL] at hlast
    cases hlast
  | some L =>
    unfold lastMention at hL
    have hLmem := mem_of_getLast?_some hL
    rw [List.mem_filter] at hLmem
    have hLpath : L.path = p := of_decide_eq_true hLmem.2
    show _ = some (projectRow L (effOnDisk L))
    apply find?_eq_some_of_unique
    · rw [List.mem_map]
      refine ⟨L, ?_, rfl⟩
      rw [List.mem_filter]
      refine ⟨hLmem.1, ?_⟩
      rw [decide_eq_true_iff]
      unfold lastMention
      rw [hLpath]
      exact hL
    · simp [projectRow, hLpath]
    · intro y hy hpy
      rw [List.mem_map] at hy
      obtain ⟨r, hr, rfl⟩ := hy
      rw [List.mem_filter] at hr
      have hlast : lastMention rows r.path = some r := of_decide_eq_true hr.2
      have hpq2 : r.path = p := by simpa [projectRow] using hpy
      unfold lastMention at hlast
      rw [hpq2, hL] at hlast
      have : L = r := Option.some.inj hlast
      rw [← this]

theorem nodup_rows_of_mono {rows : List Record} (hm : MonoStamps rows) : rows.Nodup := by
  rw [List.nodup_iff_sublist]
  intro a hsub
  have hchain : (rows.filter (fun r => decide (r.path = a.path))).Nodup :=
    List.Pairwise.imp (fun hab he => absurd (he ▸ hab) (lt_irrefl _)) (hm a.path)
  have hsub2 := List.Sublist.filter (fun r => decide (r.path = a.path)) hsub
  rw [List.filter_cons, List.filter_cons, if_pos (by simp), if_pos (by simp),
    List.filter_nil] at hsub2
  exact (List.nodup_iff_sublist.mp hchain) a hsub2

theorem nodup_map_path_of_unique :
    ∀ (l : List Record), l.Nodup →
      (∀ r1 ∈ l, ∀ r2 ∈ l, r1.path = r2.path → r1 = r2) →
      (l.map Record.path).Nodup := by
  intro l
  induction l with
  | nil => intro _ _; simp
  | cons x t ih =>
    intro hn hu
    rw [List.nodup_cons] at hn
    rw [List.map_cons, List.nodup_cons]
    constructor
    · intro hc
      rw [List.mem_map] at hc
      obtain ⟨y, hy, hyp⟩ := hc
      have := hu y (List.mem_cons_of_mem _ hy) x (List.mem_cons_self _ _) hyp
      exact hn.1 (this ▸ hy)
    · exact ih hn.2
        (fun r1 h1 r2 h2 => hu r1 (List.mem_cons_of_mem _ h1) r2 (List.mem_cons_of_mem _ h2))

theorem nodup_paths_rankKeep (rows : List Record) (hm : MonoStamps rows) :
    ((rankKeep rows).map Record.path).Nodup := by
  rw [rankKeep_eq_lastMention_filter rows hm]
  apply nodup_map_path_of_unique
  · exact (nodup_rows_of_mono hm).filter _
  · intro r1 h1 r2 h2 hp
    rw [List.mem_filter] at h1 h2
    have e1 : lastMention rows r1.path = some r1 := of_decide_eq_true h1.2
    have e2 : lastMention rows r2.path = some r2 := of_decide_eq_true h2.2
    rw [hp, e2] at e1
    exact (Option.some.inj e1).symm

theorem nodup_paths_dedupRows (rows : List Record) (hm : MonoStamps rows) :
    ((dedupRows rows).map QRow.path).Nodup := by
  unfold dedupRows
  rw [List.map_map]
  have heq : (rankKeep rows).map (QRow.path ∘ fun r => projectRow r (effOnDisk r)) =
      (rankKeep rows).map Record.path :=
    List.map_congr_left (fun r _ => rfl)
  rw [heq]
  exact nodup_paths_rankKeep rows hm

theorem nodup_paths_stateProj (st : StateMap) (hp : pathsConsistent st)
    (hn : (st.map Prod.fst).Nodup) : ((stateProj st).map QRow.path).Nodup := by
  unfold stateProj
  rw [List.map_map]
  have heq : st.map (QRow.path ∘ fun pr => projectRow pr.2 (pr.2.on_disk.getD true)) =
      st.map Prod.fst :=
    List.map_congr_left (fun e he => by
      simp only [Function.comp_apply, projectRow]
      exact hp e he)
  rw [heq]
  exact hn

/-- A well-formed base-only experiment directory: a single base snapshot
whose rows are path-keyed state rows as `_write_base` writes them. -/
def WFBaseOnly (dir : Dir) : Prop :=
  ∃ bn brows, dir = [(bn, brows)] ∧ isBaseFile bn = true ∧
    (brows.map Record.path).Nodup ∧
    ∀ r ∈ brows, (∃ b, r.on_disk = some b) ∧ r.status = none

/-- A well-formed has-deltas experiment directory: the base first, then the
applicable delta files in sorted name order, each shaped as `_write_delta`
writes them (null `on_disk`, per-file unique paths, removed rows copying
the then-current state record), with fresh `indexed_at` stamps along each
path. -/
def WFDeltas (dir : Dir) : Prop :=
  ∃ bn brows deltas, dir = (bn, brows) :: deltas ∧ deltas ≠ [] ∧
    isBaseFile bn = true ∧
    (∀ d ∈ deltas, isDeltaFile d.1 = true ∧ pyReplace bn "base_" "delta_" < d.1) ∧
    deltas.Pairwise (fun a b => a.1 < b.1) ∧
    (∀ r ∈ brows, (∃ b, r.on_disk = some b) ∧ r.status = none) ∧
    (∀ d ∈ deltas, ∀ r ∈ d.2, r.on_disk = none) ∧
    (∀ d ∈ deltas, (d.2.map Record.path).Nodup) ∧
    (∀ pre d post, deltas = pre ++ d :: post → ∀ r ∈ d.2,
      r.status = some "removed" →
      ∃ m, dictGet? (pre.foldl (fun st f => f.2.foldl applyDeltaRow st)
          (loadBaseRows brows)) r.path = some m ∧
        r = { m with indexed_at := r.indexed_at, on_disk := none, status := some "removed" }) ∧
    MonoStamps (brows ++ (deltas.map Prod.snd).flatten)

theorem load_single_base (bn : String) (brows : List Record) (hb : isBaseFile bn = true) :
    load_current_state [(bn, brows)] = loadBaseRows brows := by
  apply load_of_single_base _ (bn, brows)
  · rw [List.filter_cons, if_pos (by simpa using hb), List.filter_nil]
  · rw [List.filter_cons, if_neg (by simp [isDeltaFile_eq_false_of_isBaseFile hb]),
      List.filter_nil]

theorem parquetFiles_of_WF {dir : Dir} (h : WFBaseOnly dir ∨ WFDeltas dir) :
    parquetFiles dir = dir := by
  unfold parquetFiles
  apply List.filter_eq_self.mpr
  intro f hf
  rcases h with ⟨bn, brows, hdir, hb, _, _⟩ | ⟨bn, brows, deltas, hdir, _, hb, hd, _⟩
  · rw [hdir] at hf
    rw [List.mem_singleton] at hf
    rw [hf]
    exact isParquetFile_of_isBaseFile hb
  · rw [hdir] at hf
    rcases List.mem_cons.mp hf with rfl | hf2
    · exact isParquetFile_of_isBaseFile hb
    · exact isParquetFile_of_isDeltaFile (hd f hf2).1

theorem dir_ne_nil_of_WF {dir : Dir} (h : WFBaseOnly dir ∨ WFDeltas dir) : dir ≠ [] := by
  rcases h with ⟨bn, brows, hdir, _⟩ | ⟨bn, brows, deltas, hdir, _⟩
  · rw [hdir]; simp
  · rw [hdir]; simp

theorem hasDelta_of_WFDeltas {dir : Dir} (h : WFDeltas dir) : hasDelta dir = true := by
  obtain ⟨bn, brows, deltas, hdir, hne2, hb, hd, _⟩ := h
  rw [hdir]
  unfold hasDelta
  rw [List.any_eq_true]
  cases deltas with
  | nil => exact absurd rfl hne2
  | cons d t =>
    exact ⟨d, List.mem_cons_of_mem _ (List.mem_cons_self _ _),
      (hd d (List.mem_cons_self _ _)).1⟩

theorem hasDelta_of_WFBaseOnly {dir : Dir} (h : WFBaseOnly dir) : hasDelta dir = false := by
  obtain ⟨bn, brows, hdir, hb, _, _⟩ := h
  rw [hdir]
  unfold hasDelta
  simp [isDeltaFile_eq_false_of_isBaseFile hb]

/-- The rows DuckDB reads from a list of experiment file groups. -/
theorem rows_of_files (exps : List (String × Dir)) :
    ((((exps.map (fun e => parquetFiles e.2)).flatten).map Prod.snd).flatten) =
      (exps.map (fun e => allRows (parquetFiles e.2))).flatten := by
  induction exps with
  | nil => rfl
  | cons e t ih =>
    simp only [List.map_cons, List.flatten_cons, List.map_append, List.flatten_append]
    rw [ih]
    rfl

theorem files_nonempty (exps : List (String × Dir)) (hne : exps ≠ [])
    (h : ∀ e ∈ exps, parquetFiles e.2 ≠ []) :
    ((exps.map (fun e => parquetFiles e.2)).flatten).isEmpty = false := by
  rw [Bool.eq_false_iff]
  intro hc
  rw [List.isEmpty_iff] at hc
  rw [List.flatten_eq_nil_iff] at hc
  cases exps with
  | nil => exact hne rfl
  | cons e t =>
    exact h e (List.mem_cons_self _ _)
      (hc _ (List.mem_map_of_mem _ (List.mem_cons_self _ _)))

theorem specProj_eq_stateProj (st : StateMap) (h : onDiskSome st) :
    st.map (fun pr => projectRow pr.2 (effOnDisk pr.2)) = stateProj st := by
  unfold stateProj
  apply List.map_congr_left
  intro e he
  obtain ⟨b, hb⟩ := h e he
  rw [effOnDisk_of_some hb, hb]
  rfl

theorem onDiskSome_load_of_WF {dir : Dir} (h : WFBaseOnly dir ∨ WFDeltas dir) :
    onDiskSome (load_current_state dir) := by
  rcases h with ⟨bn, brows, hdir, hb, hnp, hbase⟩ |
    ⟨bn, brows, deltas, hdir, hne2, hb, hd, hsorted, hbase, _⟩
  · rw [hdir, load_single_base bn brows hb]
    exact onDiskSome_loadBaseRows (fun r hr => (hbase r hr).1)
  · rw [hdir, load_unfold bn brows deltas hb hd hsorted]
    exact onDiskSome_foldFiles
      (onDiskSome_loadBaseRows (fun r hr => (hbase r hr).1)) deltas

theorem coalesceRows_append (rows1 rows2 : List Record) :
    coalesceRows (rows1 ++ rows2) = coalesceRows rows1 ++ coalesceRows rows2 := by
  unfold coalesceRows
  rw [List.map_append]

theorem rankKeep_append_disjoint (rows1 rows2 : List Record)
    (hdisj : ∀ r1 ∈ rows1, ∀ r2 ∈ rows2, r1.path ≠ r2.path) :
    rankKeep (rows1 ++ rows2) = rankKeep rows1 ++ rankKeep rows2 := by
  unfold rankKeep
  rw [List.filter_append]
  congr 1
  · apply List.filter_congr
    intro r hr
    rw [List.all_append]
    have h2 : rows2.all (fun r2 => !(decide (r2.path = r.path)) || decide (r2 = r) ||
        decide (r2.indexed_at < r.indexed_at)) = true := by
      rw [List.all_eq_true]
      intro r2 hr2
      have hne2 : r2.path ≠ r.path := fun he => hdisj r hr r2 hr2 he.symm
      simp [hne2]
    rw [h2, Bool.and_true]
  · apply List.filter_congr
    intro r hr
    rw [List.all_append]
    have h1 : rows1.all (fun r2 => !(decide (r2.path = r.path)) || decide (r2 = r) ||
        decide (r2.indexed_at < r.indexed_at)) = true := by
      rw [List.all_eq_true]
      intro r1 hr1
      have hne1 : r1.path ≠ r.path := hdisj r1 hr1 r hr
      simp [hne1]
    rw [h1, Bool.true_and]

theorem dedupRows_append (rows1 rows2 : List Record)
    (hdisj : ∀ r1 ∈ rows1, ∀ r2 ∈ rows2, r1.path ≠ r2.path) :
    dedupRows (rows1 ++ rows2) = dedupRows rows1 ++ dedupRows rows2 := by
  unfold dedupRows
  rw [rankKeep_append_disjoint rows1 rows2 hdisj, List.map_append]

theorem monoStamps_sublist {rows rows2 : List Record} (h : List.Sublist rows2 rows)
    (hm : MonoStamps rows) : MonoStamps rows2 :=
  fun p => (hm p).sublist (List.Sublist.filter _ h)

/-- One has-deltas experiment: the deduped stream is a permutation of the
reconstructed state's projection. -/
theorem dedup_eq_state_perexp (bn : String) (brows : List Record)
    (deltas : List (String × List Record))
    (hb : isBaseFile bn = true)
    (hd : ∀ d ∈ deltas, isDeltaFile d.1 = true ∧ pyReplace bn "base_" "delta_" < d.1)
    (hsorted : deltas.Pairwise (fun a b => a.1 < b.1))
    (hbase : ∀ r ∈ brows, (∃ b, r.on_disk = some b) ∧ r.status = none)
    (hod : ∀ d ∈ deltas, ∀ r ∈ d.2, r.on_disk = none)
    (hnd : ∀ d ∈ deltas, (d.2.map Record.path).Nodup)
    (hrem : ∀ pre d post, deltas = pre ++ d :: post → ∀ r ∈ d.2,
      r.status = some "removed" →
      ∃ m, dictGet? (pre.foldl (fun st f => f.2.foldl applyDeltaRow st)
          (loadBaseRows brows)) r.path = some m ∧
        r = { m with indexed_at := r.indexed_at, on_disk := none, status := some "removed" })
    (hm : MonoStamps (brows ++ (deltas.map Prod.snd).flatten)) :
    List.Perm (dedupRows (brows ++ (deltas.map Prod.snd).flatten))
      (stateProj (load_current_state ((bn, brows) :: deltas))) := by
  have heq := load_unfold bn brows deltas hb hd hsorted
  have hinv := load_current_state_inv ((bn, brows) :: deltas)
  apply perm_of_keyed_find?_eq QRow.path
  · exact nodup_paths_dedupRows _ hm
  · exact nodup_paths_stateProj _ hinv.1 hinv.2
  · intro p
    rw [dedupRows_find? _ hm p, stateProj_find? p _ hinv.1, heq]
    exact (state_entry_eq_lastMention brows hbase deltas hod hnd hrem p).symm

/-- One base-only experiment: reading the single base directly gives
exactly the reconstructed state's projection. -/
theorem coalesce_eq_state_baseonly (bn : String) (brows : List Record)
    (hb : isBaseFile bn = true)
    (hnp : (brows.map Record.path).Nodup) :
    coalesceRows brows = stateProj (load_current_state [(bn, brows)]) := by
  rw [load_single_base bn brows hb]
  have hreb : loadBaseRows brows = brows.map (fun r => (r.path, r)) := by
    have hst := loadBaseRows_rebuild (brows.map (fun r => (r.path, r))) []
      (by
        intro e he
        rw [List.mem_map] at he
        obtain ⟨r, _, rfl⟩ := he
        rfl)
      (by
        rw [List.map_map]
        have hcomp : (Prod.fst ∘ fun r : Record => (r.path, r)) = Record.path := rfl
        rw [hcomp]
        exact hnp)
      (by intro e _ hc; exact List.not_mem_nil _ hc)
    rw [List.map_map] at hst
    have hid : brows.map (Prod.snd ∘ fun r : Record => (r.path, r)) = brows := by
      have hcomp2 : (Prod.snd ∘ fun r : Record => (r.path, r)) = id := rfl
      rw [hcomp2, List.map_id]
    rw [hid] at hst
    unfold loadBaseRows
    rw [hst]
    simp
  rw [hreb]
  unfold stateProj coalesceRows
  rw [List.map_map]
  rfl

theorem perm_flatten_map {γ : Type} (f : (String × Dir) → List γ)
    {l1 l2 : List (String × Dir)} (h : List.Perm l1 l2) :
    List.Perm ((l1.map f).flatten) ((l2.map f).flatten) :=
  (h.map f).join

/-- The claim's logical `files` relation, spelled from the spec: one row
per entry of each experiment's reconstructed state, with the effective
`on_disk` CASE applied to the stored record. -/
def specFiles (cat : Catalog) : List QRow :=
  (cat.map (fun e => (load_current_state e.2).map
    (fun pr => projectRow pr.2 (effOnDisk pr.2)))).flatten

theorem specFiles_eq_stateProj (cat : Catalog)
    (h : ∀ e ∈ cat, onDiskSome (load_current_state e.2)) :
    specFiles cat = (cat.map (fun e => stateProj (load_current_state e.2))).flatten := by
  unfold specFiles
  congr 1
  apply List.map_congr_left
  intro e he
  exact specProj_eq_stateProj _ (h e he)

/-- Base-only group: direct reads give exactly the per-experiment state
projections, in order. -/
theorem coalesce_flatten :
    ∀ (exps : List (String × Dir)), (∀ e ∈ exps, WFBaseOnly e.2) →
      coalesceRows ((exps.map (fun e => allRows e.2)).flatten) =
        (exps.map (fun e => stateProj (load_current_state e.2))).flatten := by
  intro exps
  induction exps with
  | nil => intro _; rfl
  | cons e t ih =>
    intro hwfb
    simp only [List.map_cons, List.flatten_cons]
    rw [coalesceRows_append]
    congr 1
    · obtain ⟨bn, brows, hdir, hb, hnp, hbase⟩ := hwfb e (List.mem_cons_self _ _)
      rw [hdir]
      have hrows : allRows [(bn, brows)] = brows := by
        unfold allRows
        simp
      rw [hrows]
      exact coalesce_eq_state_baseonly bn brows hb hnp
    · exact ih (fun e2 h2 => hwfb e2 (List.mem_cons_of_mem _ h2))

/-- Has-deltas group: the global rank-1 dedup over the concatenated rows
is a permutation of the per-experiment state projections, provided no path
is catalogued by two experiments of the group. -/
theorem dedup_flatten :
    ∀ (exps : List (String × Dir)), (∀ e ∈ exps, WFDeltas e.2) →
      List.Pairwise (fun e1 e2 => ∀ r1 ∈ allRows e1.2, ∀ r2 ∈ allRows e2.2,
        r1.path ≠ r2.path) exps →
      List.Perm (dedupRows ((exps.map (fun e => allRows e.2)).flatten))
        ((exps.map (fun e => stateProj (load_current_state e.2))).flatten) := by
  intro exps
  induction exps with
  | nil => intro _ _; exact List.Perm.refl _
  | cons e t ih =>
    intro hwfd hdisj
    rw [List.pairwise_cons] at hdisj
    simp only [List.map_cons, List.flatten_cons]
    rw [dedupRows_append _ _ ?hdj]
    case hdj =>
      intro r1 h1 r2 h2
      rw [List.mem_flatten] at h2
      obtain ⟨l2, hl2, hr2⟩ := h2
      rw [List.mem_map] at hl2
      obtain ⟨e2, he2, rfl⟩ := hl2
      exact hdisj.1 e2 he2 r1 h1 r2 hr2
    apply List.Perm.append
    · obtain ⟨bn, brows, deltas, hdir, hne2, hb, hd, hsorted, hbase, hod, hnd, hrem, hm⟩ :=
        hwfd e (List.mem_cons_self _ _)
      rw [hdir]
      have hrows : allRows ((bn, brows) :: deltas) = brows ++ (deltas.map Prod.snd).flatten := by
        unfold allRows
        rw [List.map_cons, List.flatten_cons]
      rw [hrows]
      exact dedup_eq_state_perexp bn brows deltas hb hd hsorted hbase hod hnd hrem hm
    · exact ih (fun e2 h2 => hwfd e2 (List.mem_cons_of_mem _ h2)) hdisj.2

theorem onDiskFilter_false (l : List QRow) : l.filter (onDiskFilter false) = l :=
  List.filter_eq_self.mpr (fun x _ => rfl)

/-- A decidable sufficient condition for `MonoStamps`. -/
theorem monoStamps_of_pairwise {rows : List Record}
    (h : rows.Pairwise (fun a b => a.path = b.path → a.indexed_at < b.indexed_at)) :
    MonoStamps rows := by
  intro p
  have h2 := h.filter (fun r => decide (r.path = p))
  apply List.Pairwise.imp_of_mem ?_ h2
  intro a b ha hb hab
  rw [List.mem_filter] at ha hb
  exact hab ((of_decide_eq_true ha.2).trans (of_decide_eq_true hb.2).symm)

/-- **C4.** The query layer answers against the reconstructed logical view:
over any catalog of well-formed experiment directories **whose experiments
catalogue disjoint path sets** (the amendment: the global `PARTITION BY
path` dedup conflates same-path rows across experiments otherwise), the
logical `files` relation produced by `_query_with_dedup`'s selective-dedup
optimisation is, up to row order, exactly one row per path of each
experiment's reconstructed state with the effective `on_disk` CASE
applied, and `count()` equals the number of entries in the reconstructed
states. -/
theorem query_dedup_refines_fold (cat : Catalog)
    (hwf : ∀ e ∈ cat, WFBaseOnly e.2 ∨ WFDeltas e.2)
    (hne : cat ≠ [])
    (hdisj : List.Pairwise (fun e1 e2 => ∀ r1 ∈ allRows e1.2, ∀ r2 ∈ allRows e2.2,
      r1.path ≠ r2.path) cat) :
    ∃ qrows, query_files cat = Except.ok qrows ∧
      List.Perm qrows (specFiles cat) ∧
      count_q cat false = Except.ok (specFiles cat).length := by
  have hpfid : ∀ e ∈ cat, parquetFiles e.2 = e.2 := fun e he => parquetFiles_of_WF (hwf e he)
  have hpfne : ∀ e ∈ cat, parquetFiles e.2 ≠ [] := fun e he => by
    rw [hpfid e he]
    exact dir_ne_nil_of_WF (hwf e he)
  have hall : cat.filter (fun e => !(parquetFiles e.2).isEmpty) = cat :=
    List.filter_eq_self.mpr (fun e he => by
      simp [List.isEmpty_iff, hpfne e he])
  have hsps : specFiles cat = (cat.map (fun e => stateProj (load_current_state e.2))).flatten :=
    specFiles_eq_stateProj cat (fun e he => onDiskSome_load_of_WF (hwf e he))
  by_cases hc1 : (cat.filter (fun e => hasDelta e.2)).isEmpty = true
  · -- every experiment is base-only: the direct-read fast path
    have hc1b := hc1
    rw [List.isEmpty_iff, List.filter_eq_nil_iff] at hc1b
    have hbo : ∀ e ∈ cat, WFBaseOnly e.2 := by
      intro e he
      rcases hwf e he with h | h
      · exact h
      · exact absurd (hasDelta_of_WFDeltas h) (hc1b e he)
    have hrp : readParquet ((cat.map (fun e => parquetFiles e.2)).flatten) =
        Except.ok ((((cat.map (fun e => parquetFiles e.2)).flatten).map Prod.snd).flatten) := by
      unfold readParquet
      rw [files_nonempty cat hne hpfne]
      rfl
    have hq : query_files cat = Except.ok (coalesceRows
        ((((cat.map (fun e => parquetFiles e.2)).flatten).map Prod.snd).flatten)) := by
      unfold query_files
      simp only []
      rw [hall, if_pos hc1, hrp]
    have hperm : List.Perm (coalesceRows
        ((((cat.map (fun e => parquetFiles e.2)).flatten).map Prod.snd).flatten))
        (specFiles cat) := by
      rw [rows_of_files]
      have hmapeq : cat.map (fun e => allRows (parquetFiles e.2)) =
          cat.map (fun e => allRows e.2) :=
        List.map_congr_left (fun e he => by rw [hpfid e he])
      rw [hmapeq, coalesce_flatten cat hbo, hsps]
    refine ⟨_, hq, hperm, ?_⟩
    unfold count_q
    rw [hq]
    simp only [Except.map]
    rw [onDiskFilter_false, hperm.length_eq]
  · by_cases hc2 : (cat.filter (fun e => !(hasDelta e.2))).isEmpty = true
    · -- every experiment has deltas: the single global dedup
      have hc2b := hc2
      rw [List.isEmpty_iff, List.filter_eq_nil_iff] at hc2b
      have hdl : ∀ e ∈ cat, WFDeltas e.2 := by
        intro e he
        rcases hwf e he with h | h
        · exact absurd (by rw [hasDelta_of_WFBaseOnly h]; rfl) (hc2b e he)
        · exact h
      have hrp : readParquet ((cat.map (fun e => parquetFiles e.2)).flatten) =
          Except.ok ((((cat.map (fun e => parquetFiles e.2)).flatten).map Prod.snd).flatten) := by
        unfold readParquet
        rw [files_nonempty cat hne hpfne]
        rfl
      have hq : query_files cat = Except.ok (dedupRows
          ((((cat.map (fun e => parquetFiles e.2)).flatten).map Prod.snd).flatten)) := by
        unfold query_files
        simp only []
        rw [hall, if_neg hc1, if_pos hc2, hrp]
      have hperm : List.Perm (dedupRows
          ((((cat.map (fun e => parquetFiles e.2)).flatten).map Prod.snd).flatten))
          (specFiles cat) := by
        rw [rows_of_files]
        have hmapeq : cat.map (fun e => allRows (parquetFiles e.2)) =
            cat.map (fun e => allRows e.2) :=
          List.map_congr_left (fun e he => by rw [hpfid e he])
        rw [hmapeq, hsps]
        exact dedup_flatten cat hdl hdisj
      refine ⟨_, hq, hperm, ?_⟩
      unfold count_q
      rw [hq]
      simp only [Except.map]
      rw [onDiskFilter_false, hperm.length_eq]
    · -- mixed: base-only stream unioned with the deduped stream
      have hboWF : ∀ e ∈ cat.filter (fun e => !(hasDelta e.2)), WFBaseOnly e.2 := by
        intro e he
        rw [List.mem_filter] at he
        rcases hwf e he.1 with h | h
        · exact h
        · exfalso
          have hh := he.2
          rw [hasDelta_of_WFDeltas h] at hh
          simp at hh
      have hdlWF : ∀ e ∈ cat.filter (fun e => hasDelta e.2), WFDeltas e.2 := by
        intro e he
        rw [List.mem_filter] at he
        rcases hwf e he.1 with h | h
        · exfalso
          have hh := he.2
          rw [hasDelta_of_WFBaseOnly h] at hh
          simp at hh
        · exact h
      have hbone : cat.filter (fun e => !(hasDelta e.2)) ≠ [] := by
        intro hcemp
        exact hc2 (by rw [hcemp]; rfl)
      have hdlne : cat.filter (fun e => hasDelta e.2) ≠ [] := by
        intro hcemp
        exact hc1 (by rw [hcemp]; rfl)
      have hrp1 : readParquet (((cat.filter (fun e => !(hasDelta e.2))).map
          (fun e => parquetFiles e.2)).flatten) =
          Except.ok (((((cat.filter (fun e => !(hasDelta e.2))).map
            (fun e => parquetFiles e.2)).flatten).map Prod.snd).flatten) := by
        unfold readParquet
        rw [files_nonempty _ hbone (fun e he => hpfne e (List.mem_of_mem_filter he))]
        rfl
      have hrp2 : readParquet (((cat.filter (fun e => hasDelta e.2)).map
          (fun e => parquetFiles e.2)).flatten) =
          Except.ok (((((cat.filter (fun e => hasDelta e.2)).map
            (fun e => parquetFiles e.2)).flatten).map Prod.snd).flatten) := by
        unfold readParquet
        rw [files_nonempty _ hdlne (fun e he => hpfne e (List.mem_of_mem_filter he))]
        rfl
      have hq : query_files cat = Except.ok (
          coalesceRows (((((cat.filter (fun e => !(hasDelta e.2))).map
            (fun e => parquetFiles e.2)).flatten).map Prod.snd).flatten) ++
          dedupRows (((((cat.filter (fun e => hasDelta e.2)).map
            (fun e => parquetFiles e.2)).flatten).map Prod.snd).flatten)) := by
        unfold query_files
        simp only []
        rw [hall, if_neg hc1, if_neg hc2, hrp1, hrp2]
      have hmapeq1 : (cat.filter (fun e => !(hasDelta e.2))).map
          (fun e => allRows (parquetFiles e.2)) =
          (cat.filter (fun e => !(hasDelta e.2))).map (fun e => allRows e.2) :=
        List.map_congr_left (fun e he => by rw [hpfid e (List.mem_of_mem_filter he)])
      have hmapeq2 : (cat.filter (fun e => hasDelta e.2)).map
          (fun e => allRows (parquetFiles e.2)) =
          (cat.filter (fun e => hasDelta e.2)).map (fun e => allRows e.2) :=
        List.map_congr_left (fun e he => by rw [hpfid e (List.mem_of_mem_filter he)])
      have hperm : List.Perm (
          coalesceRows (((((cat.filter (fun e => !(hasDelta e.2))).map
            (fun e => parquetFiles e.2)).flatten).map Prod.snd).flatten) ++
          dedupRows (((((cat.filter (fun e => hasDelta e.2)).map
            (fun e => parquetFiles e.2)).flatten).map Prod.snd).flatten))
          (specFiles cat) := by
        rw [rows_of_files, rows_of_files, hmapeq1, hmapeq2]
        rw [coalesce_flatten _ hboWF]
        have hpermD := dedup_flatten _ hdlWF (hdisj.sublist (List.filter_sublist cat))
        have hstep := List.Perm.append
          (List.Perm.refl (((cat.filter (fun e => !(hasDelta e.2))).map
            (fun e => stateProj (load_current_state e.2))).flatten)) hpermD
        apply hstep.trans
        have h1 := List.filter_append_perm (fun e => hasDelta e.2) cat
        have h2 := perm_flatten_map (fun e => stateProj (load_current_state e.2)) h1
        rw [List.map_append, List.flatten_append] at h2
        rw [hsps]
        exact (List.perm_append_comm).trans h2
      refine ⟨_, hq, hperm, ?_⟩
      unfold count_q
      rw [hq]
      simp only [Except.map]
      rw [onDiskFilter_false, hperm.length_eq]

/-! ## C4: concrete catalogs -/

def cxBase1 : Record := { path := "/d/f", parent_path := "/d", filename := "f", size := some 1, mtime := some 10, owner := some "0", group_name := some "0", permissions := some 33188, checksum := none, experiment := some "e1", run := none, indexed_at := "2024-01-01", on_disk := some true, status := none }

def cxDelta1 : Record := { cxBase1 with size := some 2, indexed_at := "2024-01-02", on_disk := none, status := some "modified" }

def cxBase2 : Record := { cxBase1 with experiment := some "e2", indexed_at := "2024-01-03" }

def cxDelta2 : Record := { cxBase2 with size := some 3, indexed_at := "2024-01-04", on_disk := none, status := some "modified" }

/-- Two has-deltas experiments that both catalogue the path `/d/f`. -/
def cxCat : Catalog :=
  [("e1", [("base_20240101.parquet", [cxBase1]), ("delta_20240102.parquet", [cxDelta1])]),
   ("e2", [("base_20240103.parquet", [cxBase2]), ("delta_20240104.parquet", [cxDelta2])])]

/-- Counterexample to C4 as stated: when two has-deltas experiments
catalogue the same path, `ROW_NUMBER() OVER (PARTITION BY path ...)` runs
globally over the union of their rows, so the logical relation keeps one
row for the path while the two per-experiment reconstructed states hold
two entries: `count()` returns 1, the fold total is 2. -/
theorem shared_path_breaks_global_dedup :
    count_q cxCat false = Except.ok 1 ∧ (specFiles cxCat).length = 2 := by
  have hmono : MonoStamps [cxBase1, cxDelta1, cxBase2, cxDelta2] :=
    monoStamps_of_pairwise (by
      refine List.Pairwise.cons ?_ (List.Pairwise.cons ?_ (List.Pairwise.cons ?_ (by simp)))
      · intro b hb _
        rcases List.mem_cons.mp hb with rfl | hb2
        · refine String.lt_iff_toList_lt.mpr ?_ <;> decide
        · rcases List.mem_cons.mp hb2 with rfl | hb3
          · refine String.lt_iff_toList_lt.mpr ?_ <;> decide
          · rw [List.mem_singleton] at hb3
            subst hb3
            refine String.lt_iff_toList_lt.mpr ?_ <;> decide
      · intro b hb _
        rcases List.mem_cons.mp hb with rfl | hb2
        · refine String.lt_iff_toList_lt.mpr ?_ <;> decide
        · rw [List.mem_singleton] at hb2
          subst hb2
          refine String.lt_iff_toList_lt.mpr ?_ <;> decide
      · intro b hb _
        rw [List.mem_singleton] at hb
        subst hb
        refine String.lt_iff_toList_lt.mpr ?_ <;> decide)
  have hrk : rankKeep [cxBase1, cxDelta1, cxBase2, cxDelta2] = [cxDelta2] := by
    rw [rankKeep_eq_lastMention_filter _ hmono]
    rfl
  have hq : query_files cxCat =
      Except.ok (dedupRows [cxBase1, cxDelta1, cxBase2, cxDelta2]) := rfl
  constructor
  · unfold count_q
    rw [hq]
    unfold dedupRows
    rw [hrk]
    rfl
  · have hl1 : load_current_state [("base_20240101.parquet", [cxBase1]),
        ("delta_20240102.parquet", [cxDelta1])] =
        [("delta_20240102.parquet", [cxDelta1])].foldl (fun st f => f.2.foldl applyDeltaRow st)
          (loadBaseRows [cxBase1]) :=
      load_unfold _ _ _ (by decide)
        (by
          intro d hd
          rw [List.mem_singleton] at hd
          subst hd
          exact ⟨by decide, by refine String.lt_iff_toList_lt.mpr ?_; decide⟩)
        (by simp)
    have hl2 : load_current_state [("base_20240103.parquet", [cxBase2]),
        ("delta_20240104.parquet", [cxDelta2])] =
        [("delta_20240104.parquet", [cxDelta2])].foldl (fun st f => f.2.foldl applyDeltaRow st)
          (loadBaseRows [cxBase2]) :=
      load_unfold _ _ _ (by decide)
        (by
          intro d hd
          rw [List.mem_singleton] at hd
          subst hd
          exact ⟨by decide, by refine String.lt_iff_toList_lt.mpr ?_; decide⟩)
        (by simp)
    unfold specFiles cxCat
    rw [List.map_cons, List.map_cons, List.map_nil]
    dsimp only
    rw [hl1, hl2]
    rfl

def wBase1 : Record := { path := "/d/a", parent_path := "/d", filename := "a", size := some 1, mtime := some 10, owner := some "0", group_name := some "0", permissions := some 33188, checksum := none, experiment := some "w1", run := none, indexed_at := "2024-01-01", on_disk := some true, status := none }

def wBase2 : Record := { wBase1 with path := "/d/b", filename := "b", experiment := some "w2" }

/-- A two-experiment catalog with disjoint paths, each a single base. -/
def wCat : Catalog :=
  [("w1", [("base_20240101.parquet", [wBase1])]),
   ("w2", [("base_20240102.parquet", [wBase2])])]

theorem query_dedup_refines_fold_witness :
    ∃ qrows, query_files wCat = Except.ok qrows ∧
      List.Perm qrows (specFiles wCat) ∧
      count_q wCat false = Except.ok (specFiles wCat).length :=
  query_dedup_refines_fold wCat
    (by
      intro e he
      rcases List.mem_cons.mp he with rfl | he2
      · exact Or.inl ⟨"base_20240101.parquet", [wBase1], rfl, by decide, by decide, by decide⟩
      · rcases List.mem_cons.mp he2 with rfl | he3
        · exact Or.inl ⟨"base_20240102.parquet", [wBase2], rfl, by decide, by decide, by decide⟩
        · exact absurd he3 (List.not_mem_nil e))
    (by decide)
    (by
      refine List.Pairwise.cons ?_ (List.Pairwise.cons ?_ List.Pairwise.nil)
      · intro e2 he2 r1 h1 r2 h2
        rw [List.mem_singleton] at he2
        subst he2
        simp [allRows] at h1 h2
        subst h1
        subst h2
        decide
      · intro e2 he2
        exact absurd he2 (List.not_mem_nil e2))
